import Mathlib

/-!
Verification development for the vibe_cli indexing and retrieval engine.

The Rust sources are embedded shallowly:

* strings are modelled as Lean `String`/`List Char`; Rust byte lengths and byte
  offsets are modelled with UTF-8 byte counts (`utf8Len`), matching the `str`
  invariant that the bytes are valid UTF-8;
* the md5 content hash is an abstract parameter `md5h : String → String`
  (every property proved here holds for an arbitrary hash function; the only
  fact used is that it is a function, i.e. equal inputs hash equally);
* `f32` vectors are carried opaquely through the pipeline and the store.  In
  the similarity-search selection logic the score type is an arbitrary linear
  order; the cosine formula itself is embedded separately over exact rationals;
* filesystem reads, the embedding backend and the completion backend are
  explicit function parameters, and the completion order of the bounded
  concurrent embedding calls (Rust `buffer_unordered`) is an explicit
  schedule parameter.
-/

namespace Vibe

/-! ## UTF-8 byte machinery (Rust `str` byte offsets, `is_char_boundary`) -/

/-- Byte length of a character list, mirroring Rust `str::len` (UTF-8 bytes). -/
def utf8Len (l : List Char) : Nat := (l.map Char.utf8Size).sum

/-- Embeds Rust `str::is_char_boundary`: `i` is a boundary when it is the byte
length of some prefix of the text (0 and the total length included);
positions past the end are not boundaries. -/
def isCharBoundary : List Char → Nat → Bool
  | _, 0 => true
  | [], _ + 1 => false
  | c :: cs, i + 1 =>
    if i + 1 < c.utf8Size then false else isCharBoundary cs (i + 1 - c.utf8Size)

/-- Drops the characters covered by the first `n` bytes (used to embed byte
slicing `text[start..]`; callers only use char-boundary arguments). -/
def byteDrop : List Char → Nat → List Char
  | l, 0 => l
  | [], _ + 1 => []
  | c :: cs, n + 1 => byteDrop cs (n + 1 - c.utf8Size)

/-- Takes the characters covered by the first `n` bytes (used to embed byte
slicing `text[..n]`; callers only use char-boundary arguments). -/
def byteTake : List Char → Nat → List Char
  | _, 0 => []
  | [], _ + 1 => []
  | c :: cs, n + 1 => c :: byteTake cs (n + 1 - c.utf8Size)

/-- Embeds the snap-forward loop of `chunk_fixed_size_dedup`
(`while end < text.len() && !text.is_char_boundary(end) { end += 1 }`):
the least char boundary at or after `e` when `e` is at most the byte length,
and `e` itself when `e` is past the end (the loop body never runs there). -/
def snapUp : List Char → Nat → Nat
  | _, 0 => 0
  | [], e + 1 => e + 1
  | c :: cs, e + 1 =>
    if e + 1 ≤ c.utf8Size then c.utf8Size
    else c.utf8Size + snapUp cs (e + 1 - c.utf8Size)

/-- Embeds the snap-backward loop of `chunk_fixed_size_dedup`
(`while next_start > 0 && !text.is_char_boundary(next_start) { next_start -= 1 }`). -/
def snapDown (l : List Char) : Nat → Nat
  | 0 => 0
  | i + 1 => if isCharBoundary l (i + 1) then i + 1 else snapDown l i

/-! ## Chunker data (src/infrastructure/src/file_scanner.rs) -/

/-- Embeds `FileChunk`. -/
structure FileChunk where
  path : String
  text : String
  start_offset : Nat
deriving DecidableEq

/-- Embeds `FileScanResult`. -/
structure FileScanResult where
  path : String
  hash : String
  chunks : List FileChunk
deriving DecidableEq

/-! ## Fixed-size sliding-window chunker (`chunk_fixed_size_dedup`) -/

/-- Embeds the `while start < text.len()` loop of `chunk_fixed_size_dedup`.
The loop is written with explicit fuel so that the definition is structural;
`chunk_fixed_go_isSome` below proves that fuel `utf8Len text + 1` always
suffices, which is exactly the termination of the Rust loop.  `seen` embeds
the `seen_hashes` set and `none` means the fuel ran out. -/
def chunk_fixed_go (md5h : String → String) (pathStr : String) (text : List Char) :
    Nat → Nat → List String → List FileChunk → Option (List FileChunk)
  | 0, _, _, _ => none
  | fuel + 1, start, seen, chunks =>
    if start < utf8Len text then
      let e := snapUp text (min (start + 1000) (utf8Len text))
      let ctext := String.mk (byteTake (byteDrop text start) (e - start))
      let next :=
        if md5h ctext ∈ seen then (seen, chunks)
        else (md5h ctext :: seen, chunks ++ [FileChunk.mk pathStr ctext start])
      if e = utf8Len text then some next.2
      else chunk_fixed_go md5h pathStr text fuel (snapDown text (e - 200)) next.1 next.2
    else some chunks

/-- Embeds `FileScanner::chunk_fixed_size_dedup` (window 1000 bytes, overlap
200 bytes, edges snapped to char boundaries, hash-based dedup). -/
def chunk_fixed_size_dedup (md5h : String → String) (text : List Char) (pathStr : String) :
    List FileChunk :=
  (chunk_fixed_go md5h pathStr text (utf8Len text + 1) 0 [] []).getD []

/-! ## Paragraph chunker (`chunk_text`) -/

/-- Embeds Rust `text.split("\n\n")`: split on each non-overlapping
occurrence of two consecutive newlines, leftmost first. -/
def splitParas : List Char → List (List Char)
  | [] => [[]]
  | '\n' :: '\n' :: rest => [] :: splitParas rest
  | c :: rest =>
    match splitParas rest with
    | [] => [[c]]
    | p :: ps => (c :: p) :: ps

/-- Pairs every paragraph with its byte position in the original text
(embedding `paragraph.as_ptr() as usize - text.as_ptr() as usize`): the first
paragraph starts at byte 0 and each next one starts after the previous
paragraph plus the two separator bytes. -/
def parasWithPos : List (List Char) → Nat → List (List Char × Nat)
  | [], _ => []
  | p :: ps, pos => (p, pos) :: parasWithPos ps (pos + utf8Len p + 2)

/-- Embeds the paragraph loop of `FileScanner::chunk_text` plus the trailing
flush of `current_chunk`.  State: remaining paragraphs with byte positions,
the `current_chunk` buffer, `start_offset`, the `seen_hashes` set, and the
chunks pushed so far. -/
def chunk_text_loop (md5h : String → String) (pathStr : String) :
    List (List Char × Nat) → List Char → Nat → List String → List FileChunk → List FileChunk
  | [], current, off, seen, chunks =>
    if current = [] then chunks
    else if md5h (String.mk current) ∈ seen then chunks
    else chunks ++ [FileChunk.mk pathStr (String.mk current) off]
  | (p, pos) :: rest, current, off, seen, chunks =>
    let st1 :=
      if utf8Len current + utf8Len p > 2000 ∧ current ≠ [] then
        if md5h (String.mk current) ∈ seen then
          (([] : List Char), off + pos, seen, chunks)
        else
          (([] : List Char), off + pos, md5h (String.mk current) :: seen,
            chunks ++ [FileChunk.mk pathStr (String.mk current) off])
      else (current, off, seen, chunks)
    let current2 := (if st1.1 = [] then [] else st1.1 ++ ['\n', '\n']) ++ p
    if 500 ≤ utf8Len current2 then
      if md5h (String.mk current2) ∈ st1.2.2.1 then
        chunk_text_loop md5h pathStr rest [] (st1.2.1 + pos + utf8Len p) st1.2.2.1 st1.2.2.2
      else
        chunk_text_loop md5h pathStr rest [] (st1.2.1 + pos + utf8Len p)
          (md5h (String.mk current2) :: st1.2.2.1)
          (st1.2.2.2 ++ [FileChunk.mk pathStr (String.mk current2) st1.2.1])
    else
      chunk_text_loop md5h pathStr rest current2 st1.2.1 st1.2.2.1 st1.2.2.2

/-- Embeds `FileScanner::chunk_text`: paragraph accumulation with hash dedup,
falling back to `chunk_fixed_size_dedup` when the paragraph strategy yields
no chunks. -/
def chunk_text (md5h : String → String) (text : List Char) (pathStr : String) :
    List FileChunk :=
  let chunks := chunk_text_loop md5h pathStr (parasWithPos (splitParas text) 0) [] 0 [] []
  if chunks = [] then chunk_fixed_size_dedup md5h text pathStr else chunks

/-! ## Similarity search (src/infrastructure/src/search.rs) -/

/-- Embeds `domain::models::Embedding` as stored and searched (fields `id`,
`vector`, `text`, `path`).  The `f32` coordinate type is abstracted as a
type parameter `α`: the search and store logic never computes with the
coordinates, it only carries them. -/
structure Embedding (α : Type) where
  id : String
  vector : List α
  text : String
  path : String
deriving DecidableEq

/-- Embeds `f32::sum` of pairwise products: the dot product of the
`cosine_similarity` numerator, over exact rationals. -/
def dot_product (a b : List ℚ) : ℚ := (List.zipWith (· * ·) a b).sum

/-- Embeds `a.iter().map(|x| x * x).sum::<f32>()`: the squared Euclidean
norm appearing under the square roots of `cosine_similarity`. -/
def sum_squares (a : List ℚ) : ℚ := (a.map fun x => x * x).sum

/-- Result of the `f32` expression `dot / (norm_a * norm_b)`.  Square roots
of rationals are irrational in general, so the finite value is kept
symbolically: `val d s` stands for `d / sqrt s` where
`s = sum_squares a * sum_squares b` (note `sqrt sa * sqrt sb = sqrt (sa*sb)`),
and `nan` is the IEEE result of dividing by a zero denominator (when either
norm is zero the dot product is the exact `f32` zero as well, so the code
computes `0.0 / 0.0 = NaN`). -/
inductive F32Sim where
  | nan : F32Sim
  | val : ℚ → ℚ → F32Sim
deriving DecidableEq

/-- Embeds `SearchEngine::cosine_similarity`: the division
`dot_product / (norm_a * norm_b)` with no zero-denominator guard, so a zero
norm produces the `nan` fault instead of a finite value. -/
def cosine_similarity (a b : List ℚ) : F32Sim :=
  if sum_squares a * sum_squares b = 0 then F32Sim.nan
  else F32Sim.val (dot_product a b) (sum_squares a * sum_squares b)

/-- Insertion into a list kept sorted by strictly descending score; embeds a
`BinaryHeap` state as its sorted multiset of elements (new elements tie-break
after existing equal scores).  Popping the heap maximum is `List.tail`. -/
def insertDesc {β : Type} [LinearOrder β] (x : β × String) :
    List (β × String) → List (β × String)
  | [] => [x]
  | y :: ys => if y.1 < x.1 then x :: y :: ys else y :: insertDesc x ys

/-- Embeds `SearchEngine::find_relevant_chunks`.  The corpus is scored with
`sim query ·` (in the source this is `cosine_similarity`; the score type is
abstracted to a linear order, matching `partial_cmp..unwrap_or(Equal)` on
NaN-free `f32` scores).  The `BinaryHeap` is modelled as a descending sorted
list: `push` is `insertDesc` and `pop` (which removes the *greatest*
element — Rust's `BinaryHeap` is a max-heap) is `List.tail`.  After the
loop the retained elements are sorted by descending score and the first
`top_k` texts are returned. -/
def find_relevant_chunks {α β : Type} [LinearOrder β] (sim : List α → List α → β)
    (query : List α) (embeddings : List (Embedding α)) (top_k : Nat) : List String :=
  let final := embeddings.foldl
    (fun heap emb =>
      let heap1 := insertDesc (sim query emb.vector, emb.text) heap
      if top_k * 3 < heap1.length then heap1.tail else heap1)
    []
  (final.take top_k).map Prod.snd

/-- Modelled from the spec: the result of sorting the entire corpus by
descending similarity and taking the first `top_k` texts (the exact top-k
that section 4.6 requires the bounded-heap implementation to match). -/
def spec_exact_top_k {α β : Type} [LinearOrder β] (sim : List α → List α → β)
    (query : List α) (embeddings : List (Embedding α)) (top_k : Nat) : List String :=
  let sorted := (embeddings.map fun emb => (sim query emb.vector, emb.text)).foldr insertDesc []
  (sorted.take top_k).map Prod.snd

/-- Integer dot product, used to instantiate the abstract score function on
concrete corpora in counterexamples. -/
def dotInt (a b : List ℤ) : ℤ := (List.zipWith (· * ·) a b).sum

/-! ## Embedding pipeline (src/infrastructure/src/embedder.rs) -/

/-- Embeds `EmbeddingInput`. -/
structure EmbeddingInput where
  id : String
  path : String
  text : String
deriving DecidableEq

/-- Embeds the per-input future body of `generate_batch_embeddings`: one
call to the embedding capability plus construction of the `Embedding` row
preserving `id`, `text` and `path`.  `embed` returns `none` when the
backend call fails. -/
def embed_one {α : Type} (embed : String → Option (List α)) (input : EmbeddingInput) :
    Option (Embedding α) :=
  (embed input.text).map fun v => Embedding.mk input.id v input.text input.path

/-- Embeds `results.into_iter().collect::<Result<Vec<_>>>()`: all results in
order, failing on the first error. -/
def collect_results {γ : Type} : List (Option γ) → Option (List γ)
  | [] => some []
  | none :: _ => none
  | some x :: rest => (collect_results rest).map (x :: ·)

/-- Embeds `Embedder::generate_batch_embeddings`: the batch's futures run
with bounded concurrency through `buffer_unordered(8)`, which yields results
in *completion* order, not submission order.  The completion order is the
explicit schedule `order` (a permutation of the batch indices; indices out
of range contribute nothing). -/
def generate_batch_embeddings {α : Type} (embed : String → Option (List α))
    (order : List Nat) (inputs : List EmbeddingInput) : Option (List (Embedding α)) :=
  collect_results (order.filterMap fun i => (inputs.get? i).map (embed_one embed))

/-- Structural embedding of `slice::chunks` (fuel is the list length, which
always suffices for a positive chunk size). -/
def chunksGo {γ : Type} (n : Nat) : Nat → List γ → List (List γ)
  | _, [] => []
  | 0, l => [l]
  | fuel + 1, x :: xs => (x :: xs).take n :: chunksGo n fuel ((x :: xs).drop n)

/-- Embeds `inputs.chunks(BATCH_SIZE)`. -/
def chunksOf {γ : Type} (n : Nat) (l : List γ) : List (List γ) := chunksGo n l.length l

/-- Sequential processing of the batches (batch `i` uses completion
schedule `orders i`); embeds the `for chunk in inputs.chunks(BATCH_SIZE)`
loop of `generate_embeddings`, which stops at the first failed batch. -/
def generate_batches {α : Type} (embed : String → Option (List α))
    (orders : Nat → List Nat) : Nat → List (List EmbeddingInput) → Option (List (Embedding α))
  | _, [] => some []
  | i, b :: bs =>
    match generate_batch_embeddings embed (orders i) b with
    | none => none
    | some out =>
      match generate_batches embed orders (i + 1) bs with
      | none => none
      | some rest => some (out ++ rest)

/-- Embeds `Embedder::generate_embeddings`: fixed-size batches of 32,
processed sequentially, each batch's calls completing in the order given by
the schedule `orders`. -/
def generate_embeddings {α : Type} (embed : String → Option (List α))
    (orders : Nat → List Nat) (inputs : List EmbeddingInput) : Option (List (Embedding α)) :=
  generate_batches embed orders 0 (chunksOf 32 inputs)

/-! ## Embedding store (src/infrastructure/src/embedding_storage.rs)

The two SQLite tables are modelled as lists of rows; `INSERT OR REPLACE`
removes the row with the same primary key and appends the new row, and the
`WHERE` clauses become list filters.  All storage operations are serialized
behind one connection in the source, so one sequential state-passing model
is faithful. -/

/-- Embeds the `embeddings` and `file_meta` tables of `EmbeddingStorage`. -/
structure Store (α : Type) where
  embeddings : List (Embedding α)
  file_meta : List (String × String)
deriving DecidableEq

/-- Embeds `EmbeddingStorage::get_file_hash` (`SELECT hash FROM file_meta
WHERE path = ?1`, first row if any). -/
def get_file_hash {α : Type} (s : Store α) (path : String) : Option String :=
  (s.file_meta.find? fun pr => pr.1 == path).map Prod.snd

/-- Embeds `EmbeddingStorage::upsert_file_hash` (`INSERT OR REPLACE INTO
file_meta`). -/
def upsert_file_hash {α : Type} (s : Store α) (path hash : String) : Store α :=
  { s with file_meta := s.file_meta.filter (fun pr => pr.1 != path) ++ [(path, hash)] }

/-- Embeds `EmbeddingStorage::delete_embeddings_for_path` (`DELETE FROM
embeddings WHERE path = ?1`). -/
def delete_embeddings_for_path {α : Type} (s : Store α) (path : String) : Store α :=
  { s with embeddings := s.embeddings.filter fun e => e.path != path }

/-- One `INSERT OR REPLACE INTO embeddings` statement: replace by `id`. -/
def upsert_embedding {α : Type} (s : Store α) (e : Embedding α) : Store α :=
  { s with embeddings := s.embeddings.filter (fun r => r.id != e.id) ++ [e] }

/-- Embeds `EmbeddingStorage::insert_embeddings`: the transactional loop of
upserts-by-id (all-or-nothing in the source; the model applies the whole
batch). -/
def insert_embeddings {α : Type} (s : Store α) (batch : List (Embedding α)) : Store α :=
  batch.foldl upsert_embedding s

/-- Embeds `EmbeddingStorage::get_all_embeddings` (full scan). -/
def get_all_embeddings {α : Type} (s : Store α) : List (Embedding α) :=
  s.embeddings

/-- The rows currently stored for one path (the set the spec's per-path
invariants quantify over). -/
def rows_for_path {α : Type} (s : Store α) (path : String) : List (Embedding α) :=
  s.embeddings.filter fun e => e.path == path

/-! ## Index orchestrator (src/application/src/rag_service.rs) -/

/-- Embeds `format!("{}:{}", chunk.path, chunk.start_offset)`: the chunk id. -/
def idOf (path : String) (off : Nat) : String :=
  path ++ ":" ++ Nat.repr off

/-- Embeds `format!("FILE: {}\nOFFSET: {}\n{}", chunk.path,
chunk.start_offset, chunk.text)`: the text actually embedded and stored. -/
def decorated_text (c : FileChunk) : String :=
  "FILE: " ++ c.path ++ "\nOFFSET: " ++ Nat.repr c.start_offset ++ "\n" ++ c.text

/-- The `EmbeddingInput` queued for one chunk in `build_index_with_files`. -/
def chunk_input (c : FileChunk) : EmbeddingInput :=
  EmbeddingInput.mk (idOf c.path c.start_offset) c.path (decorated_text c)

/-- Embeds `FileScanner::load_and_chunk_file` for a readable file below the
size cap whose lossily-decoded content is `content`: whole-content hash plus
`chunk_text`. -/
def scan_of (md5h : String → String) (path content : String) : FileScanResult :=
  FileScanResult.mk path (md5h content) (chunk_text md5h content.data path)

/-- Result of one `build_index_with_files` invocation: the resulting store
state, whether the run succeeded, the queued embedding inputs (exactly one
embedding call is attempted per queued input), and the paths passed to
`delete_embeddings_for_path`, in order. -/
structure IndexRun (α : Type) where
  store : Store α
  ok : Bool
  queued : List EmbeddingInput
  deletes : List String
deriving DecidableEq

/-- Embeds the directory-overview block at the top of
`build_index_with_files`: when the overview text is non-empty and its hash
differs from the stored hash for the synthetic path `__dir_overview__`, the
old overview embeddings are deleted, a synthetic input is queued, and the
new hash is upserted. -/
def dir_overview_step {α : Type} (md5h : String → String) (dir_overview : String)
    (s : Store α) : Store α × List EmbeddingInput × List String :=
  if dir_overview = "" then (s, [], [])
  else
    let dir_hash := md5h dir_overview
    if get_file_hash s "__dir_overview__" = some dir_hash then (s, [], [])
    else
      let s1 := delete_embeddings_for_path s "__dir_overview__"
      let s2 := upsert_file_hash s1 "__dir_overview__" dir_hash
      (s2, [EmbeddingInput.mk ("__dir_overview__:" ++ dir_hash) "__dir_overview__"
              ("DIRECTORY TREE:\n" ++ dir_overview)], ["__dir_overview__"])

/-- Embeds the `for scan in scans` loop of `build_index_with_files`:
scans with an empty hash or no chunks are skipped, unchanged files (stored
hash equal to the scan hash) are skipped, and for each changed file the old
embeddings are deleted, its chunks are queued, and the new hash is
upserted — file by file, while all queued inputs wait for the single
embed-and-insert step after the loop. -/
def process_scans {α : Type} (s : Store α) (queued : List EmbeddingInput)
    (dels : List String) : List FileScanResult → Store α × List EmbeddingInput × List String
  | [] => (s, queued, dels)
  | scan :: rest =>
    if scan.hash = "" ∨ scan.chunks = [] then process_scans s queued dels rest
    else if get_file_hash s scan.path = some scan.hash then process_scans s queued dels rest
    else
      let s1 := delete_embeddings_for_path s scan.path
      let s2 := upsert_file_hash s1 scan.path scan.hash
      process_scans s2 (queued ++ scan.chunks.map chunk_input) (dels ++ [scan.path]) rest

/-- Embeds `RagService::build_index_with_files` given the scanner output
`scans` and the rendered directory overview: the overview block, the
per-file diff loop, then one `generate_embeddings` + `insert_embeddings`
step for all queued inputs (skipped when nothing was queued).  A `none`
from the embedding pipeline aborts the run after the loop's deletes and
hash upserts have already been applied. -/
def build_index_with_files {α : Type} (md5h : String → String)
    (embed : String → Option (List α)) (orders : Nat → List Nat)
    (dir_overview : String) (scans : List FileScanResult) (s : Store α) : IndexRun α :=
  let d := dir_overview_step md5h dir_overview s
  let l := process_scans d.1 d.2.1 d.2.2 scans
  if l.2.1 = [] then IndexRun.mk l.1 true l.2.1 l.2.2
  else
    match generate_embeddings embed orders l.2.1 with
    | none => IndexRun.mk l.1 false l.2.1 l.2.2
    | some embs => IndexRun.mk (insert_embeddings l.1 embs) true l.2.1 l.2.2

/-! ## Query path (`RagService::query_with_feedback`) -/

/-- Embeds `matches at the head`: the first list is an initial run of the
second. -/
def matchesAt : List Char → List Char → Bool
  | [], _ => true
  | _ :: _, [] => false
  | a :: as, b :: bs => a = b && matchesAt as bs

/-- Embeds Rust `str::contains` (substring search). -/
def contains_seq : List Char → List Char → Bool
  | [], needle => matchesAt needle []
  | c :: t, needle => matchesAt needle (c :: t) || contains_seq t needle

/-- Embeds `String::contains` on Lean strings. -/
def str_contains (hay needle : String) : Bool :=
  contains_seq hay.data needle.data

/-- Embeds `str::to_lowercase` (per-character lowercasing). -/
def to_lowercase (s : String) : String :=
  String.mk (s.data.map Char.toLower)

/-- Literal returned when the assembled context is empty. -/
def no_context_msg : String := "No relevant code context found for this query."

/-- Result of one `query_with_feedback` invocation: `result` is `none` when
a backend error was propagated to the caller, and `completion_context`
records the context block of the completion call when one was made. -/
structure QueryRun where
  result : Option String
  completion_context : Option String
deriving DecidableEq

/-- Embeds the prompt `format!` of `query_with_feedback`. -/
def query_prompt (question feedback context : String) : String :=
  let feedback_part :=
    if feedback = "" then "" else "\n\nUser feedback for improvement: " ++ feedback
  "You are an expert software engineer. Based on the provided code context and directory structure, "
    ++ question ++ feedback_part ++ " \n\nContext:\n" ++ context
    ++ "\n\nProvide a concise summary that includes:\n- Project purpose\n- Main features\n- Technologies used\n- Architecture\n- Complete directory structure (copy exactly from the DIRECTORY TREE section in the context)\n\nBe accurate and base your answer only on the provided context. Do not invent or modify the directory structure."

/-- Embeds `RagService::query_with_feedback`.  The embedding and completion
backends are the partial functions `embed_query` and `complete` (`none` is a
failed call, which the source propagates); `readme` is the result of
`fs::read_to_string("README.md")` and `dir_overview` the rendered tree.
The retrieved texts are reranked/prepended exactly as in the source:
for project-level questions the README block and then the directory tree
block are pushed to the front; the context is the `"\n\n"` join; an empty
context short-circuits with `no_context_msg` before any completion call. -/
def query_with_feedback {α β : Type} [LinearOrder β] (sim : List α → List α → β)
    (embed_query : String → Option (List α)) (complete : String → Option String)
    (readme : Option String) (dir_overview : String) (s : Store α)
    (question feedback : String) : QueryRun :=
  match embed_query question with
  | none => QueryRun.mk none none
  | some query_embedding =>
    let chunks0 := find_relevant_chunks sim query_embedding (get_all_embeddings s) 50
    let chunks1 :=
      if str_contains (to_lowercase question) "project"
          || str_contains (to_lowercase question) "what is" then
        let withReadme :=
          match readme with
          | some rc => ("FILE: README.md\n" ++ rc) :: chunks0
          | none => chunks0
        if dir_overview = "" then withReadme
        else ("DIRECTORY TREE:\n" ++ dir_overview) :: withReadme
      else chunks0
    let context := String.intercalate "\n\n" chunks1
    if context = "" then QueryRun.mk (some no_context_msg) none
    else QueryRun.mk (complete (query_prompt question feedback context)) (some context)

/-! ## Directory walker (src/infrastructure/src/file_scanner.rs)

The filesystem is modelled as a tree; each directory carries a flag saying
whether `read_dir` succeeds on it. -/

/-- One filesystem entry: a file with its name, or a directory with its
name, its readability, and its entries. -/
inductive FsEntry where
  | file : String → FsEntry
  | dir : String → Bool → List FsEntry → FsEntry

/-- Embeds the `ignored_dirs` set built in `FileScanner::new`. -/
def ignored_dirs : List String :=
  [".git", "target", "node_modules", ".next", "dist", "build", ".idea", ".vscode",
   ".cache", "venv", "__pycache__"]

/-- Helper for `extension_of`: scanning the reversed file name, the
characters before the first dot (i.e. after the last dot of the name). -/
def extRev : List Char → Option (List Char)
  | [] => none
  | '.' :: _ => some []
  | c :: rest => (extRev rest).map (c :: ·)

/-- Embeds `Path::extension` on a file name: the part after the last dot,
none when there is no dot or when the only dot is the leading character
(hidden files like ".gitignore" have no extension in Rust). -/
def extension_of (name : String) : Option String :=
  match extRev name.data.reverse with
  | none => none
  | some revExt =>
    if revExt.length + 1 = name.data.length then none
    else some (String.mk revExt.reverse)

/-- Embeds `shared::utils::is_supported_file` (extension allow-list;
`unwrap_or("")` makes a missing extension unsupported). -/
def is_supported_file (name : String) : Bool :=
  match extension_of name with
  | none => false
  | some ext => ext ∈ (["rs", "md", "toml", "json", "graphql"] : List String)

/-- Embeds `FileScanner::collect_files_recursive` iterating over the entries
of one readable directory: supported files are collected, ignored directory
names are skipped, and every other directory is recursed into after
`read_dir(&path)?` — an unreadable nested directory therefore propagates an
error that aborts the whole collection. -/
def collect_entries (parent : String) : List FsEntry → Except Unit (List String)
  | [] => Except.ok []
  | FsEntry.file name :: rest =>
    match collect_entries parent rest with
    | Except.error e => Except.error e
    | Except.ok tail =>
      Except.ok (if is_supported_file name then (parent ++ "/" ++ name) :: tail else tail)
  | FsEntry.dir name readable entries :: rest =>
    if name ∈ ignored_dirs then collect_entries parent rest
    else if readable then
      match collect_entries (parent ++ "/" ++ name) entries with
      | Except.error e => Except.error e
      | Except.ok sub =>
        match collect_entries parent rest with
        | Except.error e => Except.error e
        | Except.ok tail => Except.ok (sub ++ tail)
    else Except.error ()

/-- Embeds `FileScanner::collect_files`: `read_dir` on the root itself, so an
unreadable root fails the whole scan. -/
def collect_files (root : FsEntry) : Except Unit (List String) :=
  match root with
  | FsEntry.file _ => Except.error ()
  | FsEntry.dir name readable entries =>
    if readable then collect_entries name entries else Except.error ()

/-- The `"  ".repeat(depth)` indent of `walk_directory`. -/
def indentOf (depth : Nat) : String := String.mk (List.replicate (2 * depth) ' ')

mutual
/-- Embeds `FileScanner::walk_directory` on one directory: bail out past the
depth or entry budget, push the indented relative path, then — only if
`read_dir` succeeds (`let Ok(read_dir) = ... else return`) — walk the child
directories; an unreadable directory contributes its own line and is
otherwise silently skipped. -/
def walk_directory (maxd maxe : Nat) (readable : Bool) (entries : List FsEntry)
    (display : String) (depth seen : Nat) : List String × Nat :=
  if maxd < depth ∨ maxe ≤ seen then ([], seen)
  else
    let line := indentOf depth ++ display
    if maxe ≤ seen + 1 then ([line], seen + 1)
    else if readable then
      let r := walk_children maxd maxe entries display depth (seen + 1)
      (line :: r.1, r.2)
    else ([line], seen + 1)

/-- Embeds the `for entry in read_dir.flatten()` loop of `walk_directory`:
only child directories are visited, ignored names are skipped. -/
def walk_children (maxd maxe : Nat) (l : List FsEntry) (pd : String) (depth seen : Nat) :
    List String × Nat :=
  match l with
  | [] => ([], seen)
  | FsEntry.file _ :: rest => walk_children maxd maxe rest pd depth seen
  | FsEntry.dir name readable entries :: rest =>
    if name ∈ ignored_dirs then walk_children maxd maxe rest pd depth seen
    else
      let sub := walk_directory maxd maxe readable entries
        (if pd = "." then name else pd ++ "/" ++ name) (depth + 1) seen
      let tail := walk_children maxd maxe rest pd depth sub.2
      (sub.1 ++ tail.1, tail.2)
end

/-- Embeds `FileScanner::directory_overview`: the walk from the root (whose
relative display is ".") joined with newlines. -/
def directory_overview (root : FsEntry) (maxd maxe : Nat) : String :=
  match root with
  | FsEntry.file _ => ""
  | FsEntry.dir _ readable entries =>
    String.intercalate "\n" (walk_directory maxd maxe readable entries "." 0 0).1

/-- The `Embedding` row a successful pipeline produces for one input: the
input's `id`, `path` and `text` with the backend's vector for that text. -/
def expected_embedding {α : Type} (embed : String → Option (List α))
    (inp : EmbeddingInput) : Embedding α :=
  Embedding.mk inp.id ((embed inp.text).getD []) inp.text inp.path

/-! ## Decimal rendering (`format!` of a `usize` offset) and id injectivity -/

/-- Decimal digit list of a natural number, most significant first; this is
what `format!("{}", n)` renders and what `Nat.repr` produces (proved in
`toDigitsCore_eq_decGo`). -/
def decGo (n : Nat) : List Char :=
  if n < 10 then [Nat.digitChar n]
  else decGo (n / 10) ++ [Nat.digitChar (n % 10)]
termination_by n
decreasing_by exact Nat.div_lt_self (by omega) (by omega)

theorem decGo_lt {n : Nat} (h : n < 10) : decGo n = [Nat.digitChar n] := by
  rw [decGo, if_pos h]

theorem decGo_ge {n : Nat} (h : ¬ n < 10) :
    decGo n = decGo (n / 10) ++ [Nat.digitChar (n % 10)] := by
  conv_lhs => rw [decGo]
  rw [if_neg h]

theorem decGo_length_pos (n : Nat) : 0 < (decGo n).length := by
  rw [decGo]
  split <;> simp

theorem digitChar_inj (a b : Nat) (ha : a < 10) (hb : b < 10)
    (h : Nat.digitChar a = Nat.digitChar b) : a = b := by
  have aux : ∀ x y : Fin 10, Nat.digitChar x.1 = Nat.digitChar y.1 → x = y := by decide
  have := aux ⟨a, ha⟩ ⟨b, hb⟩ h
  simpa [Fin.ext_iff] using this

theorem decGo_inj : ∀ m n : Nat, decGo m = decGo n → m = n := by
  intro m
  induction m using Nat.strong_induction_on with
  | _ m ih =>
    intro n h
    by_cases hm : m < 10 <;> by_cases hn : n < 10
    · rw [decGo_lt hm, decGo_lt hn] at h
      simp at h
      exact digitChar_inj m n hm hn h
    · rw [decGo_lt hm, decGo_ge hn] at h
      have hlen := congrArg List.length h
      simp only [List.length_append, List.length_singleton, List.length_cons,
        List.length_nil] at hlen
      have hpos := decGo_length_pos (n / 10)
      omega
    · rw [decGo_ge hm, decGo_lt hn] at h
      have hlen := congrArg List.length h
      simp only [List.length_append, List.length_singleton, List.length_cons,
        List.length_nil] at hlen
      have hpos := decGo_length_pos (m / 10)
      omega
    · rw [decGo_ge hm, decGo_ge hn] at h
      have hrev := congrArg List.reverse h
      simp only [List.reverse_append, List.reverse_cons, List.reverse_nil,
        List.nil_append, List.singleton_append, List.cons.injEq] at hrev
      obtain ⟨hd, htl⟩ := hrev
      have hmod : m % 10 = n % 10 :=
        digitChar_inj _ _ (Nat.mod_lt _ (by omega)) (Nat.mod_lt _ (by omega)) hd
      have hdiv : m / 10 = n / 10 := by
        have hlists : decGo (m / 10) = decGo (n / 10) := by
          have := congrArg List.reverse htl
          simpa using this
        exact ih (m / 10) (Nat.div_lt_self (by omega) (by omega)) _ hlists
      omega

theorem toDigitsCore_eq_decGo :
    ∀ (f n : Nat) (acc : List Char), n < f →
      Nat.toDigitsCore 10 f n acc = decGo n ++ acc := by
  intro f
  induction f with
  | zero => omega
  | succ f ih =>
    intro n acc hn
    have step : Nat.toDigitsCore 10 (f + 1) n acc =
        if n / 10 = 0 then Nat.digitChar (n % 10) :: acc
        else Nat.toDigitsCore 10 f (n / 10) (Nat.digitChar (n % 10) :: acc) := by
      rw [Nat.toDigitsCore]
    rw [step]
    by_cases hdiv : n / 10 = 0
    · have hlt : n < 10 := by omega
      rw [if_pos hdiv, decGo_lt hlt, Nat.mod_eq_of_lt hlt]
      rfl
    · have h10 : 10 ≤ n := by omega
      rw [if_neg hdiv]
      rw [ih (n / 10) (Nat.digitChar (n % 10) :: acc) (by omega)]
      rw [show decGo n = decGo (n / 10) ++ [Nat.digitChar (n % 10)] from decGo_ge (by omega)]
      simp

theorem natRepr_inj (m n : Nat) (h : Nat.repr m = Nat.repr n) : m = n := by
  unfold Nat.repr at h
  have hdata := congrArg String.data h
  simp only [List.asString] at hdata
  unfold Nat.toDigits at hdata
  rw [toDigitsCore_eq_decGo (m + 1) m [] (by omega),
    toDigitsCore_eq_decGo (n + 1) n [] (by omega)] at hdata
  simp at hdata
  exact decGo_inj m n hdata

theorem idOf_inj (p : String) (o1 o2 : Nat) (h : idOf p o1 = idOf p o2) : o1 = o2 := by
  unfold idOf at h
  have hdata := congrArg String.data h
  simp only [String.data_append, List.append_assoc] at hdata
  have h1 := List.append_cancel_left hdata
  have h2 := List.append_cancel_left h1
  exact natRepr_inj o1 o2 (String.ext h2)

/-! ## Claim C5: cosine similarity and the zero-norm case -/

/-- C5 — the claim reads: "cosine_similarity(a, b) returns the dot product of
a and b divided by the product of their Euclidean norms, and when either
vector has zero norm it returns similarity 0 rather than propagating a
numeric fault (no NaN or infinity from the division)."  The first half is
what the code computes, but the second half is false: the source divides
unconditionally, so a zero norm makes it evaluate `0.0 / 0.0`, which is NaN —
there is no zero-norm guard returning 0.  This theorem exhibits the
divergence: whenever either squared norm is zero the embedded function
returns the `nan` fault value, never a finite 0. -/
theorem c5_cosine_zero_norm_nan (a b : List ℚ)
    (h : sum_squares a = 0 ∨ sum_squares b = 0) :
    cosine_similarity a b = F32Sim.nan ∧ cosine_similarity a b ≠ F32Sim.val 0 1 := by
  have hz : sum_squares a * sum_squares b = 0 := by
    rcases h with h | h <;> rw [h] <;> ring
  unfold cosine_similarity
  rw [if_pos hz]
  exact ⟨rfl, by simp⟩

/-- Witness for C5 at the concrete failing input `a = [0]`, `b = [1]`. -/
theorem c5_cosine_zero_norm_nan_witness :
    cosine_similarity [0] [1] = F32Sim.nan ∧ cosine_similarity [0] [1] ≠ F32Sim.val 0 1 :=
  c5_cosine_zero_norm_nan [0] [1] (Or.inl (by simp [sum_squares]))

/-! ## Claim C1: exact top-k selection -/

/-- C1 — the claim reads: "find_relevant_chunks(q, corpus, k) returns at most
k results sorted by non-increasing cosine similarity to q, and the returned
list is identical to the list obtained by sorting the entire corpus by
descending similarity and taking the first k."  This is false: the source
pushes every scored entry into a Rust `BinaryHeap` — a *max*-heap — and pops
whenever the heap exceeds `3 * k` elements, so it evicts the *best*
candidates and keeps the worst `3k`.  With `k = 1` and a four-element corpus
whose scores under the query are `5, 0, 3, 4` (pairwise distinct, so tie
order is irrelevant), the function returns the text of the third-best entry
while the exact sort of the spec returns the best one. -/
theorem c1_top_k_counterexample :
    find_relevant_chunks dotInt [1, 0]
        [Embedding.mk "e1" [5, 0] "t1" "p", Embedding.mk "e2" [0, 1] "t2" "p",
         Embedding.mk "e3" [3, 4] "t3" "p", Embedding.mk "e4" [4, 1] "t4" "p"] 1 = ["t4"] ∧
      spec_exact_top_k dotInt [1, 0]
        [Embedding.mk "e1" [5, 0] "t1" "p", Embedding.mk "e2" [0, 1] "t2" "p",
         Embedding.mk "e3" [3, 4] "t3" "p", Embedding.mk "e4" [4, 1] "t4" "p"] 1 = ["t1"] ∧
      ["t4"] ≠ ["t1"] := by
  refine ⟨by decide, by decide, by decide⟩

/-! ## Claim C2: hash upserts without their embeddings -/

/-- C2 — the claim reads: "If an indexing pass fails mid-run, previously
completed files remain correctly migrated and only the in-flight file's old
embeddings are already removed; ... the store is never left with an updated
FileMeta hash for a path whose new embeddings were not inserted."  This is
false in the code: `build_index_with_files` upserts every changed file's new
hash inside the diff loop but inserts all new embeddings in a single batch
after the loop, so when the embedding backend fails the store is left with
the new hash and no embeddings for every changed file — and a retry then
skips those files for ever (hash comparison says "unchanged"), as this
two-pass evaluation shows: after the failed first pass the hash for "a.md"
is stored while its rows are empty, and a second pass with a healthy backend
queues nothing and leaves the rows empty. -/
theorem c2_hash_without_embeddings :
    (build_index_with_files (α := ℤ) (fun s => "H" ++ s) (fun _ => none) (fun _ => [0]) ""
        [scan_of (fun s => "H" ++ s) "a.md" "hello"] (Store.mk [] [])).ok = false ∧
      get_file_hash
        (build_index_with_files (α := ℤ) (fun s => "H" ++ s) (fun _ => none) (fun _ => [0]) ""
          [scan_of (fun s => "H" ++ s) "a.md" "hello"] (Store.mk [] [])).store "a.md" =
        some "Hhello" ∧
      rows_for_path
        (build_index_with_files (α := ℤ) (fun s => "H" ++ s) (fun _ => none) (fun _ => [0]) ""
          [scan_of (fun s => "H" ++ s) "a.md" "hello"] (Store.mk [] [])).store "a.md" = [] ∧
      (build_index_with_files (α := ℤ) (fun s => "H" ++ s) (fun _ => some [1]) (fun _ => [0]) ""
        [scan_of (fun s => "H" ++ s) "a.md" "hello"]
        (build_index_with_files (α := ℤ) (fun s => "H" ++ s) (fun _ => none) (fun _ => [0]) ""
          [scan_of (fun s => "H" ++ s) "a.md" "hello"] (Store.mk [] [])).store).ok = true ∧
      (build_index_with_files (α := ℤ) (fun s => "H" ++ s) (fun _ => some [1]) (fun _ => [0]) ""
        [scan_of (fun s => "H" ++ s) "a.md" "hello"]
        (build_index_with_files (α := ℤ) (fun s => "H" ++ s) (fun _ => none) (fun _ => [0]) ""
          [scan_of (fun s => "H" ++ s) "a.md" "hello"] (Store.mk [] [])).store).queued = [] ∧
      rows_for_path
        (build_index_with_files (α := ℤ) (fun s => "H" ++ s) (fun _ => some [1]) (fun _ => [0]) ""
          [scan_of (fun s => "H" ++ s) "a.md" "hello"]
          (build_index_with_files (α := ℤ) (fun s => "H" ++ s) (fun _ => none) (fun _ => [0]) ""
            [scan_of (fun s => "H" ++ s) "a.md" "hello"] (Store.mk [] [])).store).store "a.md" =
        [] := by
  refine ⟨by decide, by decide, by decide, by decide, by decide, by decide⟩

/-! ## Claim C8: empty store and the "no relevant context" message -/

/-- C8 counterexample — the claim reads: "For every question, when the store
is empty ... a query returns the 'no relevant context' message and does not
make a completion-backend call with empty context."  The universal part is
false: for a project-level question (`contains "project"` or `"what is"`)
the source prepends the README file and the directory tree to the retrieved
chunks even when the store is empty, so the context is non-empty, the
message is not returned, and a completion call is made (with that non-empty
context). -/
theorem c8_counterexample :
    (query_with_feedback (α := ℤ) (β := ℤ) dotInt (fun _ => some [1]) (fun p => some p)
          (some "# readme") "" (Store.mk [] []) "What is this project?" "").result ≠
        some no_context_msg ∧
      (query_with_feedback (α := ℤ) (β := ℤ) dotInt (fun _ => some [1]) (fun p => some p)
          (some "# readme") "" (Store.mk [] []) "What is this project?" "").completion_context =
        some "FILE: README.md\n# readme" := by
  refine ⟨by decide, by decide⟩

/-- C8 as amended: when the store is empty, a query either propagates a
failed embedding call, or returns the "no relevant context" message with no
completion call, or — only when the project-level heuristic injected README
or directory-tree content — makes a completion call whose context is
non-empty; a completion call with empty context never happens.  In
particular the message is returned whenever the question does not trigger
the heuristic, and whenever no README and no directory overview are
available. -/
theorem c8_amended {α β : Type} [LinearOrder β] (sim : List α → List α → β)
    (embed_query : String → Option (List α)) (complete : String → Option String)
    (readme : Option String) (dir_overview question feedback : String) :
    ((query_with_feedback sim embed_query complete readme dir_overview (Store.mk [] [])
          question feedback).completion_context = none →
        (query_with_feedback sim embed_query complete readme dir_overview (Store.mk [] [])
            question feedback).result = some no_context_msg ∨
          (query_with_feedback sim embed_query complete readme dir_overview (Store.mk [] [])
              question feedback).result = none) ∧
      (∀ ctx,
        (query_with_feedback sim embed_query complete readme dir_overview (Store.mk [] [])
            question feedback).completion_context = some ctx → ctx ≠ "") ∧
      (str_contains (to_lowercase question) "project" = false →
        str_contains (to_lowercase question) "what is" = false →
        embed_query question ≠ none →
        query_with_feedback sim embed_query complete readme dir_overview (Store.mk [] [])
            question feedback = QueryRun.mk (some no_context_msg) none) ∧
      (readme = none → dir_overview = "" → embed_query question ≠ none →
        query_with_feedback sim embed_query complete readme dir_overview (Store.mk [] [])
            question feedback = QueryRun.mk (some no_context_msg) none) := by
  cases hq : embed_query question with
  | none =>
    refine ⟨?_, ?_, ?_, ?_⟩
    · intro _
      right
      simp [query_with_feedback, hq]
    · intro ctx h
      simp [query_with_feedback, hq] at h
    · intro _ _ hne
      exact absurd rfl hne
    · intro _ _ hne
      exact absurd rfl hne
  | some qe =>
    have hnil : find_relevant_chunks sim qe
        (get_all_embeddings (Store.mk ([] : List (Embedding α)) [])) 50 = [] := rfl
    refine ⟨?_, ?_, ?_, ?_⟩
    · intro h
      simp only [query_with_feedback, hq, hnil] at h ⊢
      split_ifs at h ⊢ <;> simp_all
    · intro ctx h
      simp only [query_with_feedback, hq, hnil] at h ⊢
      split_ifs at h <;> simp_all
    · intro h1 h2 _
      simp only [query_with_feedback, hq, hnil, h1, h2]
      rfl
    · intro hr hd _
      subst hr hd
      simp only [query_with_feedback, hq, hnil]
      split_ifs <;> first
        | rfl
        | exact absurd rfl ‹¬"\n\n".intercalate [] = ""›

/-- Witness for C8 as amended: a non-project question over the empty store
returns the message with no completion call. -/
theorem c8_amended_witness :
    query_with_feedback (α := ℤ) (β := ℤ) dotInt (fun _ => some [1]) (fun p => some p) none ""
        (Store.mk [] []) "hello" "" = QueryRun.mk (some no_context_msg) none :=
  (c8_amended dotInt (fun _ => some [1]) (fun p => some p) none "" "hello" "").2.2.1
    (by decide) (by decide) (by decide)

/-! ## Claim C9: unreadable directories during discovery and overview -/

/-- C9 counterexample — the claim reads: "During both file discovery
(collect_files) and the directory overview walk, a single unreadable
subdirectory below the root is silently skipped and traversal continues
best-effort, while an unreadable top-level root fails the whole scan."
This is true for the overview walk but false for `collect_files`:
`collect_files_recursive` calls `read_dir` through the `?` operator even for
nested directories, so one unreadable subdirectory aborts the whole
collection instead of being skipped.  On a root containing an unreadable
subdirectory `sub`, a readable subdirectory `ok` and a supported file
`a.rs`, collection errors out (instead of returning the file), while the
overview lists the root, the unreadable subdirectory's own line, and the
sibling after it. -/
theorem c9_counterexample :
    collect_files (FsEntry.dir "root" true
        [FsEntry.dir "sub" false [], FsEntry.dir "ok" true [], FsEntry.file "a.rs"]) =
      Except.error () ∧
    directory_overview (FsEntry.dir "root" true
        [FsEntry.dir "sub" false [], FsEntry.dir "ok" true [], FsEntry.file "a.rs"]) 8 100 =
      ".\n  sub\n  ok" := by
  constructor
  · simp [collect_files, collect_entries, ignored_dirs]
  · simp [directory_overview, walk_directory, walk_children, ignored_dirs, indentOf]
    rfl

/-- C9 as amended: an unreadable top-level root fails the whole scan, and so
does an unreadable subdirectory anywhere below the root (no silent skip in
`collect_files`); only the directory overview walk treats an unreadable
directory best-effort — it contributes its own line and its contents are
skipped while the walk continues. -/
theorem c9_amended :
    (∀ name entries, collect_files (FsEntry.dir name false entries) = Except.error ()) ∧
    (∀ parent pre name entries post, name ∉ ignored_dirs →
      collect_entries parent (pre ++ FsEntry.dir name false entries :: post) =
        Except.error ()) ∧
    (∀ maxd maxe entries display depth seen, depth ≤ maxd → seen + 1 < maxe →
      walk_directory maxd maxe false entries display depth seen =
        ([indentOf depth ++ display], seen + 1)) := by
  refine ⟨?_, ?_, ?_⟩
  · intro name entries
    simp [collect_files]
  · intro parent pre name entries post hname
    induction pre with
    | nil =>
      simp only [List.nil_append, collect_entries]
      rw [if_neg hname]
      rfl
    | cons e pre ih =>
      cases e with
      | file n =>
        simp only [List.cons_append, collect_entries, ih]
      | dir n r es =>
        simp only [List.cons_append, collect_entries]
        by_cases hn : n ∈ ignored_dirs
        · rw [if_pos hn, ih]
        · rw [if_neg hn]
          cases r with
          | false => simp
          | true =>
            simp only [if_true]
            cases h : collect_entries (parent ++ "/" ++ n) es with
            | error e => rfl
            | ok sub => rw [ih]
  · intro maxd maxe entries display depth seen hd hs
    rw [walk_directory]
    rw [if_neg (by omega)]
    simp only []
    rw [if_neg (by omega)]
    rfl

/-- Witness for C9 as amended at concrete inputs. -/
theorem c9_amended_witness :
    collect_files (FsEntry.dir "r" false [FsEntry.file "a.rs"]) = Except.error () ∧
    collect_entries "root" [FsEntry.dir "sub" false [FsEntry.file "a.rs"]] =
      Except.error () ∧
    walk_directory 8 100 false [FsEntry.file "a.rs"] "sub" 1 1 =
      ([indentOf 1 ++ "sub"], 2) :=
  ⟨c9_amended.1 "r" [FsEntry.file "a.rs"],
    c9_amended.2.1 "root" [] "sub" [FsEntry.file "a.rs"] [] (by decide),
    c9_amended.2.2 8 100 [FsEntry.file "a.rs"] "sub" 1 1 (by decide) (by decide)⟩

/-! ## Claim C7: pipeline output vs input order -/

theorem collect_results_eq_map_some {γ : Type} :
    ∀ (l : List (Option γ)) (out : List γ), collect_results l = some out → l = out.map some := by
  intro l
  induction l with
  | nil =>
    intro out h
    simp only [collect_results, Option.some.injEq] at h
    subst h
    rfl
  | cons x rest ih =>
    intro out h
    cases x with
    | none => simp [collect_results] at h
    | some v =>
      simp only [collect_results] at h
      cases hr : collect_results rest with
      | none => rw [hr] at h; simp at h
      | some tail =>
        rw [hr] at h
        simp only [Option.map_some', Option.some.injEq] at h
        subst h
        simp [ih tail hr]

theorem range_filterMap_get {γ δ : Type} (g : γ → δ) :
    ∀ l : List γ, (List.range l.length).filterMap (fun i => (l.get? i).map g) = l.map g := by
  intro l
  induction l with
  | nil => rfl
  | cons x xs ih =>
    rw [List.length_cons, List.range_succ_eq_map, List.filterMap_cons, List.filterMap_map]
    simp only [List.get?_cons_zero, Option.map_some']
    have : (fun i => (((x :: xs).get? i).map g)) ∘ Nat.succ = fun i => ((xs.get? i).map g) := by
      funext i
      rfl
    rw [this, ih]
    rfl

theorem generate_batch_perm {α : Type} (embed : String → Option (List α))
    (order : List Nat) (inputs : List EmbeddingInput) (out : List (Embedding α))
    (hord : order.Perm (List.range inputs.length))
    (h : generate_batch_embeddings embed order inputs = some out) :
    out.Perm (inputs.map (expected_embedding embed)) := by
  unfold generate_batch_embeddings at h
  have hl := collect_results_eq_map_some _ _ h
  have hperm : (order.filterMap fun i => (inputs.get? i).map (embed_one embed)).Perm
      (inputs.map (embed_one embed)) := by
    have hp := hord.filterMap (fun i => (inputs.get? i).map (embed_one embed))
    rw [range_filterMap_get] at hp
    exact hp
  rw [hl] at hperm
  have hsome : ∀ inp ∈ inputs, embed_one embed inp = some (expected_embedding embed inp) := by
    intro inp hin
    have hmem : embed_one embed inp ∈ inputs.map (embed_one embed) :=
      List.mem_map_of_mem _ hin
    have hmem2 : embed_one embed inp ∈ out.map some := hperm.symm.subset hmem
    obtain ⟨v, _, hv⟩ := List.mem_map.mp hmem2
    unfold embed_one at hv ⊢
    cases he : embed inp.text with
    | none => rw [he] at hv; simp at hv
    | some vec => simp [he, expected_embedding]
  have hmaps : inputs.map (embed_one embed) =
      (inputs.map (expected_embedding embed)).map some := by
    rw [List.map_map]
    exact List.map_congr_left hsome
  rw [hmaps] at hperm
  have hm : Multiset.map some (↑out : Multiset (Embedding α)) =
      Multiset.map some (↑(inputs.map (expected_embedding embed))) := by
    rw [Multiset.map_coe, Multiset.map_coe]
    exact Multiset.coe_eq_coe.mpr hperm
  have := Multiset.map_injective (Option.some_injective _) hm
  exact Multiset.coe_eq_coe.mp this

theorem join_chunksGo {γ : Type} (n : Nat) (hn : 0 < n) :
    ∀ (fuel : Nat) (l : List γ), l.length ≤ fuel → (chunksGo n fuel l).flatten = l := by
  intro fuel
  induction fuel with
  | zero =>
    intro l h
    cases l with
    | nil => rfl
    | cons x xs => simp at h
  | succ fuel ih =>
    intro l h
    cases l with
    | nil => rfl
    | cons x xs =>
      simp only [chunksGo, List.flatten]
      rw [ih ((x :: xs).drop n) (by simp only [List.length_drop]; simp at h ⊢; omega)]
      exact List.take_append_drop n (x :: xs)

theorem generate_batches_perm {α : Type} (embed : String → Option (List α))
    (orders : Nat → List Nat) :
    ∀ (bs : List (List EmbeddingInput)) (i : Nat) (out : List (Embedding α)),
      (∀ j, (orders (i + j)).Perm (List.range ((bs.getD j []).length))) →
      generate_batches embed orders i bs = some out →
      out.Perm (bs.flatten.map (expected_embedding embed)) := by
  intro bs
  induction bs with
  | nil =>
    intro i out _ hg
    simp only [generate_batches, Option.some.injEq] at hg
    subst hg
    simp
  | cons b bs ih =>
    intro i out hord hg
    simp only [generate_batches] at hg
    cases hb : generate_batch_embeddings embed (orders i) b with
    | none => rw [hb] at hg; simp at hg
    | some o1 =>
      rw [hb] at hg
      cases hr : generate_batches embed orders (i + 1) bs with
      | none => rw [hr] at hg; simp at hg
      | some rest =>
        rw [hr] at hg
        simp only [Option.some.injEq] at hg
        subst hg
        have h1 : o1.Perm (b.map (expected_embedding embed)) :=
          generate_batch_perm embed (orders i) b o1 (by simpa using hord 0) hb
        have h2 : rest.Perm (bs.flatten.map (expected_embedding embed)) :=
          ih (i + 1) rest (fun j => by
            have := hord (j + 1)
            simpa [Nat.add_assoc, Nat.add_comm 1 j] using this) hr
        simpa [List.flatten, List.map_append] using h1.append h2

theorem generate_embeddings_perm {α : Type} (embed : String → Option (List α))
    (orders : Nat → List Nat) (inputs : List EmbeddingInput)
    (hord : ∀ j, (orders j).Perm (List.range (((chunksOf 32 inputs).getD j []).length)))
    (out : List (Embedding α))
    (h : generate_embeddings embed orders inputs = some out) :
    out.length = inputs.length ∧ out.Perm (inputs.map (expected_embedding embed)) := by
  have hperm := generate_batches_perm embed orders (chunksOf 32 inputs) 0 out
    (by simpa using hord) h
  rw [show (chunksOf 32 inputs).flatten = inputs from
    join_chunksGo 32 (by omega) inputs.length inputs le_rfl] at hperm
  exact ⟨by simpa using hperm.length_eq, hperm⟩

/-- C7 counterexample — the claim reads: "a successful
generate_embeddings(inputs) returns one Embedding per input, preserving each
input's id, path, and text into the corresponding output (the output
sequence corresponds input-by-input to the input sequence)."  The
order-correspondence is false: the batch futures run through
`buffer_unordered(8)`, which yields results in completion order.  Under the
completion schedule in which the second call finishes first (a schedule the
runtime is free to produce), the output lists the second input's embedding
first, so position 0 of the output does not preserve input 0's id. -/
theorem c7_counterexample :
    generate_embeddings (α := ℤ) (fun _ => some [7]) (fun _ => [1, 0])
        [EmbeddingInput.mk "a" "p" "ta", EmbeddingInput.mk "b" "p" "tb"] =
      some [Embedding.mk "b" [7] "tb" "p", Embedding.mk "a" [7] "ta" "p"] ∧
    List.Perm [1, 0] (List.range 2) ∧
    [Embedding.mk "b" [(7 : ℤ)] "tb" "p", Embedding.mk "a" [7] "ta" "p"].map Embedding.id ≠
      [EmbeddingInput.mk "a" "p" "ta", EmbeddingInput.mk "b" "p" "tb"].map
        EmbeddingInput.id := by
  refine ⟨by decide, by decide, by decide⟩

/-- C7 as amended: for every completion schedule that is a permutation of
each batch's indices, a successful `generate_embeddings` returns exactly one
`Embedding` per input — a permutation of the pointwise-expected outputs, so
every input's `id`, `path` and `text` are preserved into exactly one output
row together with the backend's vector for its text — but the output order
is the completion order, not necessarily the input order. -/
theorem c7_amended {α : Type} (embed : String → Option (List α)) (orders : Nat → List Nat)
    (inputs : List EmbeddingInput)
    (hord : ∀ j, (orders j).Perm (List.range (((chunksOf 32 inputs).getD j []).length)))
    (out : List (Embedding α))
    (h : generate_embeddings embed orders inputs = some out) :
    out.length = inputs.length ∧ out.Perm (inputs.map (expected_embedding embed)) :=
  generate_embeddings_perm embed orders inputs hord out h

/-- Witness for C7 as amended with one input and the identity schedule. -/
theorem c7_amended_witness :
    [Embedding.mk "a" [(5 : ℤ)] "ta" "p"].length = [EmbeddingInput.mk "a" "p" "ta"].length ∧
    List.Perm [Embedding.mk "a" [(5 : ℤ)] "ta" "p"]
      ([EmbeddingInput.mk "a" "p" "ta"].map (expected_embedding fun _ => some [(5 : ℤ)])) :=
  c7_amended (fun _ => some [(5 : ℤ)])
    (fun j => List.range (((chunksOf 32 [EmbeddingInput.mk "a" "p" "ta"]).getD j []).length))
    [EmbeddingInput.mk "a" "p" "ta"] (fun _ => List.Perm.refl _)
    [Embedding.mk "a" [(5 : ℤ)] "ta" "p"] (by decide)

/-! ## Claim C10: termination of the fixed-size chunker -/

theorem utf8Len_cons (c : Char) (cs : List Char) :
    utf8Len (c :: cs) = c.utf8Size + utf8Len cs := by
  simp [utf8Len]

theorem isCharBoundary_zero (l : List Char) : isCharBoundary l 0 = true := by
  cases l <;> rfl

theorem isCharBoundary_cons_add (c : Char) (cs : List Char) (i : Nat) :
    isCharBoundary (c :: cs) (i + c.utf8Size) = isCharBoundary cs i := by
  have hpos : 0 < c.utf8Size := Char.utf8Size_pos c
  obtain ⟨k, hk⟩ : ∃ k, i + c.utf8Size = k + 1 := ⟨i + c.utf8Size - 1, by omega⟩
  rw [hk]
  show (if k + 1 < c.utf8Size then false else isCharBoundary cs (k + 1 - c.utf8Size)) =
    isCharBoundary cs i
  rw [if_neg (by omega), show k + 1 - c.utf8Size = i by omega]

theorem exists_boundary_near :
    ∀ (l : List Char) (i : Nat), i ≤ utf8Len l →
      ∃ j, j ≤ i ∧ i ≤ j + 3 ∧ isCharBoundary l j = true := by
  intro l
  induction l with
  | nil =>
    intro i hi
    simp [utf8Len] at hi
    exact ⟨0, by omega, by omega, isCharBoundary_zero _⟩
  | cons c cs ih =>
    intro i hi
    by_cases hc : i < c.utf8Size
    · exact ⟨0, by omega, by have := Char.utf8Size_le_four c; omega, isCharBoundary_zero _⟩
    · rw [utf8Len_cons] at hi
      obtain ⟨j, hj1, hj2, hj3⟩ := ih (i - c.utf8Size) (by omega)
      refine ⟨j + c.utf8Size, by omega, by omega, ?_⟩
      rw [isCharBoundary_cons_add]
      exact hj3

theorem le_snapDown_of_boundary (l : List Char) :
    ∀ i j, j ≤ i → isCharBoundary l j = true → j ≤ snapDown l i := by
  intro i
  induction i with
  | zero =>
    intro j hj _
    simpa [snapDown] using hj
  | succ i ih =>
    intro j hj hb
    rw [snapDown]
    by_cases hbd : isCharBoundary l (i + 1) = true
    · rw [if_pos hbd]
      omega
    · rw [if_neg hbd]
      have hj' : j ≤ i := by
        rcases Nat.lt_or_ge j (i + 1) with hlt | hge
        · omega
        · have : j = i + 1 := by omega
          rw [this] at hb
          exact absurd hb hbd
      exact ih j hj' hb

theorem snapDown_ge_sub3 (l : List Char) (i : Nat) (h : i ≤ utf8Len l) :
    i ≤ snapDown l i + 3 := by
  obtain ⟨j, hj1, hj2, hj3⟩ := exists_boundary_near l i h
  have := le_snapDown_of_boundary l i j hj1 hj3
  omega

theorem snapUp_ge : ∀ (l : List Char) (e : Nat), e ≤ snapUp l e := by
  intro l
  induction l with
  | nil =>
    intro e
    cases e with
    | zero => simp [snapUp]
    | succ e => simp [snapUp]
  | cons c cs ih =>
    intro e
    cases e with
    | zero => simp [snapUp]
    | succ e =>
      show e + 1 ≤ (if e + 1 ≤ c.utf8Size then c.utf8Size
        else c.utf8Size + snapUp cs (e + 1 - c.utf8Size))
      by_cases hc : e + 1 ≤ c.utf8Size
      · rw [if_pos hc]
        omega
      · rw [if_neg hc]
        have := ih (e + 1 - c.utf8Size)
        omega

theorem snapUp_le_len : ∀ (l : List Char) (e : Nat), e ≤ utf8Len l → snapUp l e ≤ utf8Len l := by
  intro l
  induction l with
  | nil =>
    intro e he
    simp [utf8Len] at he
    subst he
    simp [snapUp]
  | cons c cs ih =>
    intro e he
    cases e with
    | zero =>
      show (0 : Nat) ≤ _
      omega
    | succ e =>
      rw [utf8Len_cons] at he ⊢
      show (if e + 1 ≤ c.utf8Size then c.utf8Size
        else c.utf8Size + snapUp cs (e + 1 - c.utf8Size)) ≤ c.utf8Size + utf8Len cs
      by_cases hc : e + 1 ≤ c.utf8Size
      · rw [if_pos hc]
        omega
      · rw [if_neg hc]
        have := ih (e + 1 - c.utf8Size) (by omega)
        omega

theorem snapUp_len (l : List Char) : snapUp l (utf8Len l) = utf8Len l :=
  Nat.le_antisymm (snapUp_le_len l _ le_rfl) (snapUp_ge l _)

theorem chunk_fixed_progress (text : List Char) (start : Nat) (h : start < utf8Len text)
    (hne : snapUp text (min (start + 1000) (utf8Len text)) ≠ utf8Len text) :
    start + 1000 ≤ snapUp text (min (start + 1000) (utf8Len text)) ∧
      snapUp text (min (start + 1000) (utf8Len text)) ≤ utf8Len text ∧
      snapUp text (min (start + 1000) (utf8Len text)) ≤
        snapDown text (snapUp text (min (start + 1000) (utf8Len text)) - 200) + 203 ∧
      start < snapDown text (snapUp text (min (start + 1000) (utf8Len text)) - 200) := by
  have hle : snapUp text (min (start + 1000) (utf8Len text)) ≤ utf8Len text :=
    snapUp_le_len _ _ (Nat.min_le_right _ _)
  have hcase : start + 1000 < utf8Len text := by
    by_contra hc
    have hmin : min (start + 1000) (utf8Len text) = utf8Len text :=
      Nat.min_eq_right (by omega)
    rw [hmin, snapUp_len] at hne
    exact hne rfl
  have hge : start + 1000 ≤ snapUp text (min (start + 1000) (utf8Len text)) := by
    have hmin : min (start + 1000) (utf8Len text) = start + 1000 :=
      Nat.min_eq_left (by omega)
    rw [hmin]
    exact snapUp_ge _ _
  have hsd3 := snapDown_ge_sub3 text (snapUp text (min (start + 1000) (utf8Len text)) - 200)
    (by omega)
  exact ⟨hge, hle, by omega, by omega⟩

theorem chunk_fixed_go_isSome (md5h : String → String) (pathStr : String) (text : List Char) :
    ∀ fuel start seen chunks, utf8Len text - start < fuel →
      (chunk_fixed_go md5h pathStr text fuel start seen chunks).isSome = true := by
  intro fuel
  induction fuel with
  | zero =>
    intro start seen chunks h
    omega
  | succ fuel ih =>
    intro start seen chunks h
    simp only [chunk_fixed_go]
    by_cases hs : start < utf8Len text
    · rw [if_pos hs]
      by_cases he : snapUp text (min (start + 1000) (utf8Len text)) = utf8Len text
      · rw [if_pos he]
        simp

      · rw [if_neg he]
        apply ih
        have hprog := chunk_fixed_progress text start hs he
        omega
    · rw [if_neg hs]
      simp

/-- C10 — the claim reads: "The fixed-size fallback chunker terminates for
every input text: each loop iteration either reaches the end of the text and
stops, or strictly increases the window start, because the next start is the
current window end minus the 200-byte overlap snapped back at most a few
bytes to a character boundary, and every non-final window spans at least
1000 bytes."  Confirmed: the loop (embedded with fuel) always completes on
the fuel budget `byte length + 1`, and for every non-final iteration the
snapped window end is at least `start + 1000`, the next start is that end
minus 200 snapped back at most 3 bytes, and the start strictly increases. -/
theorem c10_fixed_chunker_terminates (md5h : String → String) (pathStr : String)
    (text : List Char) :
    (chunk_fixed_go md5h pathStr text (utf8Len text + 1) 0 [] []).isSome = true ∧
    (∀ start, start < utf8Len text →
      snapUp text (min (start + 1000) (utf8Len text)) = utf8Len text ∨
        (start + 1000 ≤ snapUp text (min (start + 1000) (utf8Len text)) ∧
          snapUp text (min (start + 1000) (utf8Len text)) ≤
            snapDown text (snapUp text (min (start + 1000) (utf8Len text)) - 200) + 203 ∧
          start < snapDown text (snapUp text (min (start + 1000) (utf8Len text)) - 200))) := by
  constructor
  · exact chunk_fixed_go_isSome md5h pathStr text (utf8Len text + 1) 0 [] [] (by omega)
  · intro start hs
    by_cases he : snapUp text (min (start + 1000) (utf8Len text)) = utf8Len text
    · exact Or.inl he
    · obtain ⟨h1, _, h3, h4⟩ := chunk_fixed_progress text start hs he
      exact Or.inr ⟨h1, h3, h4⟩

/-- Witness for C10 at a concrete two-byte text. -/
theorem c10_fixed_chunker_terminates_witness :
    (chunk_fixed_go (fun s => s) "p" "ab".data (utf8Len "ab".data + 1) 0 [] []).isSome = true ∧
    (snapUp "ab".data (min (0 + 1000) (utf8Len "ab".data)) = utf8Len "ab".data ∨
      (0 + 1000 ≤ snapUp "ab".data (min (0 + 1000) (utf8Len "ab".data)) ∧
        snapUp "ab".data (min (0 + 1000) (utf8Len "ab".data)) ≤
          snapDown "ab".data (snapUp "ab".data (min (0 + 1000) (utf8Len "ab".data)) - 200) + 203 ∧
        0 < snapDown "ab".data (snapUp "ab".data (min (0 + 1000) (utf8Len "ab".data)) - 200))) :=
  ⟨(c10_fixed_chunker_terminates (fun s => s) "p" "ab".data).1,
    (c10_fixed_chunker_terminates (fun s => s) "p" "ab".data).2 0 (by decide)⟩

/-! ## Claim C6: deterministic, duplicate-free chunking -/

/-- Pushing a chunk whose hash was absent from the seen set preserves the
dedup invariants: every pushed chunk's hash is recorded, and all pushed
texts stay pairwise distinct. -/
theorem dedup_push_step (md5h : String → String) (pathStr : String)
    (chunks : List FileChunk) (seen : List String) (t : String) (o : Nat)
    (hseen : ∀ c ∈ chunks, md5h c.text ∈ seen)
    (hnd : chunks.Pairwise (fun a b => a.text ≠ b.text))
    (hni : md5h t ∉ seen) :
    (∀ c ∈ chunks ++ [FileChunk.mk pathStr t o], md5h c.text ∈ md5h t :: seen) ∧
      (chunks ++ [FileChunk.mk pathStr t o]).Pairwise (fun a b => a.text ≠ b.text) := by
  constructor
  · intro c hc
    rcases List.mem_append.mp hc with hc | hc
    · exact List.mem_cons_of_mem _ (hseen c hc)
    · simp at hc
      subst hc
      exact List.mem_cons_self _ _
  · refine List.pairwise_append.mpr ⟨hnd, List.pairwise_singleton _ _, ?_⟩
    intro a ha b hb
    simp at hb
    subst hb
    intro he
    have hat : a.text = t := he
    exact hni (hat ▸ hseen a ha)

theorem chunk_text_loop_distinct (md5h : String → String) (pathStr : String) :
    ∀ (paras : List (List Char × Nat)) (current : List Char) (off : Nat)
      (seen : List String) (chunks : List FileChunk),
      (∀ c ∈ chunks, md5h c.text ∈ seen) →
      chunks.Pairwise (fun a b => a.text ≠ b.text) →
      (chunk_text_loop md5h pathStr paras current off seen chunks).Pairwise
        (fun a b => a.text ≠ b.text) := by
  intro paras
  induction paras with
  | nil =>
    intro current off seen chunks hseen hnd
    simp only [chunk_text_loop]
    split_ifs with h1 h2
    · exact hnd
    · exact hnd
    · exact (dedup_push_step md5h pathStr chunks seen (String.mk current) off hseen hnd h2).2
  | cons pp rest ih =>
    intro current off seen chunks hseen hnd
    obtain ⟨p, pos⟩ := pp
    by_cases hA : utf8Len current + utf8Len p > 2000 ∧ current ≠ []
    · by_cases hB : md5h (String.mk current) ∈ seen
      · simp only [chunk_text_loop, if_pos hA, if_pos hB, if_true, List.nil_append]
        by_cases hC : 500 ≤ utf8Len p
        · simp only [if_pos hC]
          by_cases hD : md5h (String.mk p) ∈ seen
          · simp only [if_pos hD]
            exact ih _ _ _ _ hseen hnd
          · simp only [if_neg hD]
            exact ih _ _ _ _
              (dedup_push_step md5h pathStr chunks seen _ _ hseen hnd hD).1
              (dedup_push_step md5h pathStr chunks seen _ _ hseen hnd hD).2
        · simp only [if_neg hC]
          exact ih _ _ _ _ hseen hnd
      · simp only [chunk_text_loop, if_pos hA, if_neg hB, if_true, List.nil_append]
        have hp1 := dedup_push_step md5h pathStr chunks seen (String.mk current) off
          hseen hnd hB
        by_cases hC : 500 ≤ utf8Len p
        · simp only [if_pos hC]
          by_cases hD : md5h (String.mk p) ∈ md5h (String.mk current) :: seen
          · simp only [if_pos hD]
            exact ih _ _ _ _ hp1.1 hp1.2
          · simp only [if_neg hD]
            exact ih _ _ _ _
              (dedup_push_step md5h pathStr _ _ _ _ hp1.1 hp1.2 hD).1
              (dedup_push_step md5h pathStr _ _ _ _ hp1.1 hp1.2 hD).2
        · simp only [if_neg hC]
          exact ih _ _ _ _ hp1.1 hp1.2
    · simp only [chunk_text_loop, if_neg hA]
      by_cases hC : 500 ≤ utf8Len ((if current = [] then [] else current ++ ['\n', '\n']) ++ p)
      · simp only [if_pos hC]
        by_cases hD : md5h (String.mk ((if current = [] then []
            else current ++ ['\n', '\n']) ++ p)) ∈ seen
        · simp only [if_pos hD]
          exact ih _ _ _ _ hseen hnd
        · simp only [if_neg hD]
          exact ih _ _ _ _
            (dedup_push_step md5h pathStr chunks seen _ _ hseen hnd hD).1
            (dedup_push_step md5h pathStr chunks seen _ _ hseen hnd hD).2
      · simp only [if_neg hC]
        exact ih _ _ _ _ hseen hnd

theorem chunk_fixed_go_distinct (md5h : String → String) (pathStr : String)
    (text : List Char) :
    ∀ (fuel start : Nat) (seen : List String) (chunks out : List FileChunk),
      (∀ c ∈ chunks, md5h c.text ∈ seen) →
      chunks.Pairwise (fun a b => a.text ≠ b.text) →
      chunk_fixed_go md5h pathStr text fuel start seen chunks = some out →
      out.Pairwise (fun a b => a.text ≠ b.text) := by
  intro fuel
  induction fuel with
  | zero =>
    intro start seen chunks out _ _ h
    simp [chunk_fixed_go] at h
  | succ fuel ih =>
    intro start seen chunks out hseen hnd h
    simp only [chunk_fixed_go] at h
    by_cases hs : start < utf8Len text
    · rw [if_pos hs] at h
      by_cases hm : md5h (String.mk (byteTake (byteDrop text start)
          (snapUp text (min (start + 1000) (utf8Len text)) - start))) ∈ seen
      · rw [if_pos hm] at h
        by_cases he : snapUp text (min (start + 1000) (utf8Len text)) = utf8Len text
        · rw [if_pos he] at h
          simp at h
          subst h
          exact hnd
        · rw [if_neg he] at h
          exact ih _ _ _ _ hseen hnd h
      · rw [if_neg hm] at h
        have hp := dedup_push_step md5h pathStr chunks seen _ start hseen hnd hm
        by_cases he : snapUp text (min (start + 1000) (utf8Len text)) = utf8Len text
        · rw [if_pos he] at h
          simp at h
          subst h
          exact hp.2
        · rw [if_neg he] at h
          exact ih _ _ _ _ hp.1 hp.2 h
    · rw [if_neg hs] at h
      simp at h
      subst h
      exact hnd

/-- C6 — the claim reads: "Chunking is deterministic and duplicate-free: for
every text and path, chunking the same text twice yields the same chunk set
(as a set, ignoring order), and no two chunks produced from one file ever
have identical text content — under both the paragraph strategy and the
fixed-size sliding-window fallback."  Confirmed: the embedded chunkers are
pure functions (two runs are literally equal), and the seen-hash dedup
guarantees pairwise distinct chunk texts for any hash function, under both
strategies. -/
theorem c6_chunking_deterministic_duplicate_free (md5h : String → String)
    (text : List Char) (pathStr : String) :
    chunk_text md5h text pathStr = chunk_text md5h text pathStr ∧
    (chunk_text md5h text pathStr).Pairwise (fun a b => a.text ≠ b.text) ∧
    (chunk_fixed_size_dedup md5h text pathStr).Pairwise (fun a b => a.text ≠ b.text) := by
  have hfixed : (chunk_fixed_size_dedup md5h text pathStr).Pairwise
      (fun a b => a.text ≠ b.text) := by
    unfold chunk_fixed_size_dedup
    cases hgo : chunk_fixed_go md5h pathStr text (utf8Len text + 1) 0 [] [] with
    | none => simp
    | some out =>
      simpa using chunk_fixed_go_distinct md5h pathStr text _ _ _ _ out
        (by intro c hc; simp at hc) List.Pairwise.nil hgo
  refine ⟨rfl, ?_, hfixed⟩
  simp only [chunk_text]
  split_ifs with h
  · exact hfixed
  · exact chunk_text_loop_distinct md5h pathStr _ _ _ _ _
      (by intro c hc; simp at hc) List.Pairwise.nil

/-! ## Chunk offsets are strictly increasing and chunk paths are the file's
path (needed to show the queued chunk ids of one file are pairwise
distinct). -/

/-- Pushing a chunk at offset `o` on top of chunks that all lie strictly
below `o` keeps the offsets strictly increasing; afterwards everything lies
at or below `o`. -/
theorem offsets_push_step (pathStr t : String) (o : Nat) (chunks : List FileChunk)
    (hoff : ∀ c ∈ chunks, c.start_offset < o)
    (hnd : chunks.Pairwise (fun a b => a.start_offset < b.start_offset))
    (hpath : ∀ c ∈ chunks, c.path = pathStr) :
    (chunks ++ [FileChunk.mk pathStr t o]).Pairwise
        (fun a b => a.start_offset < b.start_offset) ∧
      (∀ c ∈ chunks ++ [FileChunk.mk pathStr t o], c.start_offset ≤ o) ∧
      (∀ c ∈ chunks ++ [FileChunk.mk pathStr t o], c.path = pathStr) := by
  refine ⟨?_, ?_, ?_⟩
  · refine List.pairwise_append.mpr ⟨hnd, List.pairwise_singleton _ _, ?_⟩
    intro a ha b hb
    simp at hb
    subst hb
    exact hoff a ha
  · intro c hc
    rcases List.mem_append.mp hc with hc | hc
    · exact Nat.le_of_lt (hoff c hc)
    · simp at hc
      subst hc
      exact Nat.le_refl _
  · intro c hc
    rcases List.mem_append.mp hc with hc | hc
    · exact hpath c hc
    · simp at hc
      subst hc
      rfl

theorem chunk_fixed_go_offsets (md5h : String → String) (pathStr : String)
    (text : List Char) :
    ∀ (fuel start : Nat) (seen : List String) (chunks out : List FileChunk),
      (∀ c ∈ chunks, c.start_offset < start) →
      chunks.Pairwise (fun a b => a.start_offset < b.start_offset) →
      (∀ c ∈ chunks, c.path = pathStr) →
      chunk_fixed_go md5h pathStr text fuel start seen chunks = some out →
      out.Pairwise (fun a b => a.start_offset < b.start_offset) ∧
        ∀ c ∈ out, c.path = pathStr := by
  intro fuel
  induction fuel with
  | zero =>
    intro start seen chunks out _ _ _ h
    simp [chunk_fixed_go] at h
  | succ fuel ih =>
    intro start seen chunks out hoff hnd hpath h
    simp only [chunk_fixed_go] at h
    by_cases hs : start < utf8Len text
    · rw [if_pos hs] at h
      by_cases hm : md5h (String.mk (byteTake (byteDrop text start)
          (snapUp text (min (start + 1000) (utf8Len text)) - start))) ∈ seen
      · rw [if_pos hm] at h
        by_cases he : snapUp text (min (start + 1000) (utf8Len text)) = utf8Len text
        · rw [if_pos he] at h
          simp at h
          subst h
          exact ⟨hnd, hpath⟩
        · rw [if_neg he] at h
          obtain ⟨_, _, _, hprog⟩ := chunk_fixed_progress text start hs he
          exact ih _ _ _ _ (fun c hc => Nat.lt_trans (hoff c hc) hprog) hnd hpath h
      · rw [if_neg hm] at h
        obtain ⟨hnd', hle', hpath'⟩ := offsets_push_step pathStr _ start chunks hoff hnd hpath
        by_cases he : snapUp text (min (start + 1000) (utf8Len text)) = utf8Len text
        · rw [if_pos he] at h
          simp at h
          subst h
          exact ⟨hnd', hpath'⟩
        · rw [if_neg he] at h
          obtain ⟨_, _, _, hprog⟩ := chunk_fixed_progress text start hs he
          exact ih _ _ _ _ (fun c hc => Nat.lt_of_le_of_lt (hle' c hc) hprog) hnd' hpath' h
    · rw [if_neg hs] at h
      simp at h
      subst h
      exact ⟨hnd, hpath⟩

theorem parasWithPos_ge : ∀ (ps : List (List Char)) (start : Nat),
    ∀ pr ∈ parasWithPos ps start, start ≤ pr.2 := by
  intro ps
  induction ps with
  | nil => intro start pr hpr; simp [parasWithPos] at hpr
  | cons p ps ih =>
    intro start pr hpr
    simp only [parasWithPos, List.mem_cons] at hpr
    rcases hpr with hpr | hpr
    · subst hpr
      exact Nat.le_refl _
    · have := ih (start + utf8Len p + 2) pr hpr
      omega

theorem parasWithPos_pairwise : ∀ (ps : List (List Char)) (start : Nat),
    (parasWithPos ps start).Pairwise (fun a b => a.2 < b.2) := by
  intro ps
  induction ps with
  | nil => intro start; simp [parasWithPos]
  | cons p ps ih =>
    intro start
    simp only [parasWithPos]
    refine List.Pairwise.cons ?_ (ih _)
    intro b hb
    have := parasWithPos_ge ps (start + utf8Len p + 2) b hb
    omega

theorem chunk_text_loop_offsets (md5h : String → String) (pathStr : String) :
    ∀ (paras : List (List Char × Nat)) (current : List Char) (off : Nat)
      (seen : List String) (chunks : List FileChunk),
      paras.Pairwise (fun a b => a.2 < b.2) →
      (current ≠ [] → ∀ pr ∈ paras, 0 < pr.2) →
      (∀ c ∈ chunks, c.start_offset < off) →
      chunks.Pairwise (fun a b => a.start_offset < b.start_offset) →
      (∀ c ∈ chunks, c.path = pathStr) →
      (chunk_text_loop md5h pathStr paras current off seen chunks).Pairwise
          (fun a b => a.start_offset < b.start_offset) ∧
        ∀ c ∈ chunk_text_loop md5h pathStr paras current off seen chunks, c.path = pathStr := by
  intro paras
  induction paras with
  | nil =>
    intro current off seen chunks _ _ hoff hnd hpath
    simp only [chunk_text_loop]
    split_ifs with h1 h2
    · exact ⟨hnd, hpath⟩
    · exact ⟨hnd, hpath⟩
    · obtain ⟨a, b, c⟩ := offsets_push_step pathStr (String.mk current) off chunks hoff hnd hpath
      exact ⟨a, c⟩
  | cons pp rest ih =>
    intro current off seen chunks hpw hpos hoff hnd hpath
    obtain ⟨p, pos⟩ := pp
    have hrest_pw : rest.Pairwise (fun a b => a.2 < b.2) := hpw.of_cons
    have hrest_pos : ∀ pr ∈ rest, 0 < pr.2 := by
      intro pr hpr
      have := (List.pairwise_cons.mp hpw).1 pr hpr
      omega
    by_cases hA : utf8Len current + utf8Len p > 2000 ∧ current ≠ []
    · have hposp : 0 < pos := hpos hA.2 (p, pos) (List.mem_cons_self _ _)
      by_cases hB : md5h (String.mk current) ∈ seen
      · simp only [chunk_text_loop, if_pos hA, if_pos hB, if_true, List.nil_append]
        by_cases hC : 500 ≤ utf8Len p
        · simp only [if_pos hC]
          by_cases hD : md5h (String.mk p) ∈ seen
          · simp only [if_pos hD]
            exact ih _ _ _ _ hrest_pw (fun h => absurd rfl h) (fun c hc => by
              have := hoff c hc
              omega) hnd hpath
          · simp only [if_neg hD]
            obtain ⟨hnd', hle', hpath'⟩ := offsets_push_step pathStr (String.mk p)
              (off + pos) chunks (fun c hc => by have := hoff c hc; omega) hnd hpath
            exact ih _ _ _ _ hrest_pw (fun h => absurd rfl h) (fun c hc => by
              have := hle' c hc
              have hl : 0 < utf8Len p := by omega
              omega) hnd' hpath'
        · simp only [if_neg hC]
          exact ih _ _ _ _ hrest_pw (fun _ => hrest_pos) (fun c hc => by
            have := hoff c hc
            omega) hnd hpath
      · simp only [chunk_text_loop, if_pos hA, if_neg hB, if_true, List.nil_append]
        obtain ⟨hnd1, hle1, hpath1⟩ := offsets_push_step pathStr (String.mk current) off
          chunks hoff hnd hpath
        have hoff1 : ∀ c ∈ chunks ++ [FileChunk.mk pathStr (String.mk current) off],
            c.start_offset < off + pos := fun c hc => by
          have := hle1 c hc
          omega
        by_cases hC : 500 ≤ utf8Len p
        · simp only [if_pos hC]
          by_cases hD : md5h (String.mk p) ∈ md5h (String.mk current) :: seen
          · simp only [if_pos hD]
            exact ih _ _ _ _ hrest_pw (fun h => absurd rfl h) (fun c hc => by
              have := hoff1 c hc
              omega) hnd1 hpath1
          · simp only [if_neg hD]
            obtain ⟨hnd2, hle2, hpath2⟩ := offsets_push_step pathStr (String.mk p)
              (off + pos) _ hoff1 hnd1 hpath1
            exact ih _ _ _ _ hrest_pw (fun h => absurd rfl h) (fun c hc => by
              have := hle2 c hc
              have hl : 0 < utf8Len p := by omega
              omega) hnd2 hpath2
        · simp only [if_neg hC]
          exact ih _ _ _ _ hrest_pw (fun _ => hrest_pos) hoff1 hnd1 hpath1
    · simp only [chunk_text_loop, if_neg hA]
      by_cases hC : 500 ≤ utf8Len ((if current = [] then [] else current ++ ['\n', '\n']) ++ p)
      · simp only [if_pos hC]
        have hinc : 0 < pos + utf8Len p := by
          rcases Nat.eq_zero_or_pos pos with hz | hp
          · have hcur : current = [] := by
              by_contra hne
              have := hpos hne (p, pos) (List.mem_cons_self _ _)
              omega
            subst hcur
            simp at hC
            omega
          · omega
        by_cases hD : md5h (String.mk ((if current = [] then []
            else current ++ ['\n', '\n']) ++ p)) ∈ seen
        · simp only [if_pos hD]
          exact ih _ _ _ _ hrest_pw (fun h => absurd rfl h) (fun c hc => by
            have := hoff c hc
            omega) hnd hpath
        · simp only [if_neg hD]
          obtain ⟨hnd', hle', hpath'⟩ := offsets_push_step pathStr _ off chunks hoff hnd hpath
          exact ih _ _ _ _ hrest_pw (fun h => absurd rfl h) (fun c hc => by
            have := hle' c hc
            omega) hnd' hpath'
      · simp only [if_neg hC]
        exact ih _ _ _ _ hrest_pw (fun _ => hrest_pos) hoff hnd hpath

theorem chunk_text_offsets (md5h : String → String) (text : List Char) (pathStr : String) :
    (chunk_text md5h text pathStr).Pairwise
        (fun a b => a.start_offset < b.start_offset) ∧
      ∀ c ∈ chunk_text md5h text pathStr, c.path = pathStr := by
  simp only [chunk_text]
  split_ifs with h
  · unfold chunk_fixed_size_dedup
    cases hgo : chunk_fixed_go md5h pathStr text (utf8Len text + 1) 0 [] [] with
    | none => simp
    | some out =>
      simpa using chunk_fixed_go_offsets md5h pathStr text _ _ _ _ out
        (by intro c hc; simp at hc) List.Pairwise.nil (by intro c hc; simp at hc) hgo
  · exact chunk_text_loop_offsets md5h pathStr _ _ _ _ _
      (parasWithPos_pairwise _ _) (fun hne => absurd rfl hne)
      (by intro c hc; simp at hc) List.Pairwise.nil (by intro c hc; simp at hc)

/-- The ids queued for one file's chunks are pairwise distinct: chunk ids
are `path:offset` with strictly increasing offsets and the file's own path. -/
theorem chunk_input_ids_nodup (md5h : String → String) (text : List Char) (pathStr : String) :
    ((chunk_text md5h text pathStr).map (fun c => (chunk_input c).id)).Nodup := by
  obtain ⟨hnd, hpath⟩ := chunk_text_offsets md5h text pathStr
  have h2 : (chunk_text md5h text pathStr).Pairwise
      (fun a b => (chunk_input a).id ≠ (chunk_input b).id) := by
    refine hnd.imp_of_mem ?_
    intro a b ha hb hlt
    have hpa := hpath a ha
    have hpb := hpath b hb
    simp only [chunk_input]
    intro he
    rw [hpa, hpb] at he
    have := idOf_inj pathStr _ _ he
    omega
  exact List.pairwise_map.mpr h2

/-! ## Store lemmas -/

theorem find?_append_eq {γ : Type} (f : γ → Bool) :
    ∀ l₁ l₂ : List γ, List.find? f (l₁ ++ l₂) =
      match List.find? f l₁ with
      | some x => some x
      | none => List.find? f l₂ := by
  intro l₁ l₂
  induction l₁ with
  | nil => simp
  | cons a l ih =>
    by_cases hf : f a
    · simp [List.find?_cons_of_pos _ hf]
    · rw [List.cons_append, List.find?_cons_of_neg _ (by simpa using hf),
        List.find?_cons_of_neg _ (by simpa using hf), ih]

theorem find?_filter_of_mem_imp {γ : Type} (f g : γ → Bool) :
    ∀ l : List γ, (∀ x ∈ l, f x = true → g x = true) →
      List.find? f (l.filter g) = List.find? f l := by
  intro l
  induction l with
  | nil => simp
  | cons a l ih =>
    intro h
    by_cases hf : f a = true
    · have hg := h a (List.mem_cons_self _ _) hf
      rw [List.filter_cons_of_pos hg, List.find?_cons_of_pos _ hf,
        List.find?_cons_of_pos _ hf]
    · have hrest := ih fun x hx => h x (List.mem_cons_of_mem _ hx)
      cases hg : g a
      · rw [List.filter_cons_of_neg (by simp [hg]), hrest,
          List.find?_cons_of_neg _ (by simpa using hf)]
      · rw [List.filter_cons_of_pos hg, List.find?_cons_of_neg _ (by simpa using hf),
          List.find?_cons_of_neg _ (by simpa using hf), hrest]

theorem filter_filter_of_mem_imp {γ : Type} (f g : γ → Bool) :
    ∀ l : List γ, (∀ x ∈ l, f x = true → g x = true) →
      (l.filter g).filter f = l.filter f := by
  intro l
  induction l with
  | nil => simp
  | cons a l ih =>
    intro h
    have hrest := ih fun x hx => h x (List.mem_cons_of_mem _ hx)
    by_cases hf : f a = true
    · have hg := h a (List.mem_cons_self _ _) hf
      rw [List.filter_cons_of_pos hg, List.filter_cons_of_pos hf,
        List.filter_cons_of_pos hf, hrest]
    · cases hg : g a
      · rw [List.filter_cons_of_neg (by simp [hg]),
          List.filter_cons_of_neg (by simpa using hf), hrest]
      · rw [List.filter_cons_of_pos hg, List.filter_cons_of_neg (by simpa using hf),
          List.filter_cons_of_neg (by simpa using hf), hrest]

theorem get_file_hash_upsert_self {α : Type} (s : Store α) (p h : String) :
    get_file_hash (upsert_file_hash s p h) p = some h := by
  unfold get_file_hash upsert_file_hash
  rw [find?_append_eq]
  have hnone : List.find? (fun pr => pr.1 == p)
      (s.file_meta.filter fun pr => pr.1 != p) = none := by
    rw [List.find?_eq_none]
    intro pr hpr
    have := (List.mem_filter.mp hpr).2
    simp at this ⊢
    exact this
  rw [hnone]
  simp

theorem get_file_hash_upsert_other {α : Type} (s : Store α) (p q h : String)
    (hne : q ≠ p) :
    get_file_hash (upsert_file_hash s p h) q = get_file_hash s q := by
  unfold get_file_hash upsert_file_hash
  rw [find?_append_eq]
  rw [find?_filter_of_mem_imp (fun pr => pr.1 == q) (fun pr => pr.1 != p) s.file_meta
    (by
      intro x _ hx
      simp at hx ⊢
      rw [hx]
      exact hne)]
  cases hfind : List.find? (fun pr => pr.1 == q) s.file_meta with
  | some x => rfl
  | none =>
    simp only []
    rw [List.find?_cons_of_neg _ (by
      simp only [beq_iff_eq]
      exact fun hc => hne hc.symm)]
    simp

theorem get_file_hash_delete {α : Type} (s : Store α) (p q : String) :
    get_file_hash (delete_embeddings_for_path s p) q = get_file_hash s q := rfl

theorem rows_for_path_delete_self {α : Type} (s : Store α) (p : String) :
    rows_for_path (delete_embeddings_for_path s p) p = [] := by
  unfold rows_for_path delete_embeddings_for_path
  rw [List.filter_eq_nil_iff]
  intro a ha
  have := (List.mem_filter.mp ha).2
  simp at this ⊢
  exact this

theorem rows_for_path_delete_other {α : Type} (s : Store α) (p q : String)
    (hne : q ≠ p) :
    rows_for_path (delete_embeddings_for_path s p) q = rows_for_path s q := by
  unfold rows_for_path delete_embeddings_for_path
  exact filter_filter_of_mem_imp _ _ s.embeddings (by
    intro x _ hx
    simp at hx ⊢
    rw [hx]
    exact hne)

theorem rows_for_path_upsert_file_hash {α : Type} (s : Store α) (p h q : String) :
    rows_for_path (upsert_file_hash s p h) q = rows_for_path s q := rfl

theorem get_file_hash_insert {α : Type} (s : Store α) (batch : List (Embedding α))
    (q : String) :
    get_file_hash (insert_embeddings s batch) q = get_file_hash s q := by
  induction batch generalizing s with
  | nil => rfl
  | cons e bs ih => exact ih (upsert_embedding s e)

theorem insert_embeddings_embeddings {α : Type} :
    ∀ (batch : List (Embedding α)) (s : Store α),
      (batch.map Embedding.id).Nodup →
      (insert_embeddings s batch).embeddings =
        s.embeddings.filter (fun r => !((batch.map Embedding.id).contains r.id)) ++ batch := by
  intro batch
  induction batch with
  | nil =>
    intro s _
    simp [insert_embeddings]
  | cons e bs ih =>
    intro s hnd
    simp only [List.map_cons, List.nodup_cons] at hnd
    have hstep : insert_embeddings s (e :: bs) = insert_embeddings (upsert_embedding s e) bs :=
      rfl
    rw [hstep, ih _ hnd.2]
    show ((s.embeddings.filter fun r => r.id != e.id) ++ [e]).filter
        (fun r => !((bs.map Embedding.id).contains r.id)) ++ bs = _
    rw [List.filter_append]
    have he : ([e].filter fun r => !((bs.map Embedding.id).contains r.id)) = [e] := by
      simp only [List.filter_cons, List.filter_nil]
      rw [if_pos]
      simpa using hnd.1
    rw [he]
    have hff : ((s.embeddings.filter fun r => r.id != e.id).filter
        fun r => !((bs.map Embedding.id).contains r.id)) =
        s.embeddings.filter fun r => !(((e :: bs).map Embedding.id).contains r.id) := by
      rw [List.filter_filter]
      apply List.filter_congr
      intro r _
      simp only [List.map_cons, List.contains_cons, Bool.not_or, bne]
      rw [Bool.and_comm]
    rw [hff]
    simp

theorem rows_for_path_insert_all {α : Type} (s : Store α) (batch : List (Embedding α))
    (p : String) (hnd : (batch.map Embedding.id).Nodup)
    (hempty : rows_for_path s p = [])
    (hpaths : ∀ e ∈ batch, e.path = p) :
    rows_for_path (insert_embeddings s batch) p = batch := by
  unfold rows_for_path
  rw [insert_embeddings_embeddings batch s hnd, List.filter_append]
  have h1 : ((s.embeddings.filter fun r => !((batch.map Embedding.id).contains r.id)).filter
      fun e => e.path == p) = [] := by
    rw [List.filter_eq_nil_iff]
    intro a ha hpa
    have hmem : a ∈ s.embeddings := (List.mem_filter.mp ha).1
    have hrow : a ∈ rows_for_path s p := List.mem_filter.mpr ⟨hmem, hpa⟩
    rw [hempty] at hrow
    simp at hrow
  have h2 : batch.filter (fun e => e.path == p) = batch :=
    List.filter_eq_self.mpr fun e he => by simp [hpaths e he]
  rw [h1, h2, List.nil_append]

theorem rows_for_path_insert_disjoint {α : Type} (s : Store α)
    (batch : List (Embedding α)) (p : String)
    (hnd : (batch.map Embedding.id).Nodup)
    (hpaths : ∀ e ∈ batch, e.path ≠ p)
    (hids : ∀ r ∈ rows_for_path s p, r.id ∉ batch.map Embedding.id) :
    rows_for_path (insert_embeddings s batch) p = rows_for_path s p := by
  unfold rows_for_path
  rw [insert_embeddings_embeddings batch s hnd, List.filter_append]
  have h2 : batch.filter (fun e => e.path == p) = [] := by
    rw [List.filter_eq_nil_iff]
    intro a ha
    simp [hpaths a ha]
  have h1 : ((s.embeddings.filter fun r => !((batch.map Embedding.id).contains r.id)).filter
      fun e => e.path == p) = s.embeddings.filter fun e => e.path == p := by
    apply filter_filter_of_mem_imp
    intro x hx hfx
    have hrow : x ∈ rows_for_path s p := List.mem_filter.mpr ⟨hx, hfx⟩
    simpa using hids x hrow
  rw [h1, h2, List.append_nil]

/-! ## Claim C3: reindexing a changed file -/

/-- C3 counterexample — the claim reads: "For any file whose content changes
between two indexing passes, after the second pass completes successfully
the set of embeddings stored for that path equals exactly the chunks
produced by chunking the new content — no stale chunks from the old content
remain."  This fails when the new content produces no chunks: a file whose
content becomes empty scans to an empty chunk list, and
`build_index_with_files` skips any scan with no chunks (`if scan.hash
.is_empty() || scan.chunks.is_empty() { continue; }`) before even comparing
hashes, so the pass succeeds while the old chunks and the old hash stay in
the store.  Here the file a.md previously held "hello" (one stored chunk);
its content changes to "", the second pass succeeds, yet the store still
holds the "hello" row, and the chunks of the new content are []. -/
theorem c3_counterexample :
    chunk_text (fun s => "H" ++ s) "".data "a.md" = [] ∧
      (build_index_with_files (α := ℤ) (fun s => "H" ++ s) (fun _ => some [1]) (fun _ => [0])
        "" [scan_of (fun s => "H" ++ s) "a.md" ""]
        (Store.mk [Embedding.mk "a.md:0" [1] "FILE: a.md\nOFFSET: 0\nhello" "a.md"]
          [("a.md", "Hhello")])).ok = true ∧
      rows_for_path
        (build_index_with_files (α := ℤ) (fun s => "H" ++ s) (fun _ => some [1]) (fun _ => [0])
          "" [scan_of (fun s => "H" ++ s) "a.md" ""]
          (Store.mk [Embedding.mk "a.md:0" [1] "FILE: a.md\nOFFSET: 0\nhello" "a.md"]
            [("a.md", "Hhello")])).store "a.md" =
        [Embedding.mk "a.md:0" [1] "FILE: a.md\nOFFSET: 0\nhello" "a.md"] ∧
      get_file_hash
        (build_index_with_files (α := ℤ) (fun s => "H" ++ s) (fun _ => some [1]) (fun _ => [0])
          "" [scan_of (fun s => "H" ++ s) "a.md" ""]
          (Store.mk [Embedding.mk "a.md:0" [1] "FILE: a.md\nOFFSET: 0\nhello" "a.md"]
            [("a.md", "Hhello")])).store "a.md" = some "Hhello" := by
  refine ⟨by decide, by decide, by decide, by decide⟩

/-- C3 as amended: for a changed file whose new content still yields a
non-empty hash and at least one chunk, a successful pass over that file
(from any prior store state, any embedding backend, and any per-batch
completion schedule) leaves exactly the new content's chunks stored for the
path — one row per chunk of the new content, carrying the decorated chunk
text and the chunk id — and the new hash recorded; a changed file whose
scan carries no chunks (empty content) or an empty hash (oversized) is
skipped entirely and keeps its old rows and hash. -/
theorem c3_amended {α : Type} (md5h : String → String) (embed : String → Option (List α))
    (orders : Nat → List Nat) (s : Store α) (p newText : String)
    (hord : ∀ j, (orders j).Perm (List.range
      (((chunksOf 32 ((chunk_text md5h newText.data p).map chunk_input)).getD j []).length)))
    (hhash : md5h newText ≠ "")
    (hchanged : get_file_hash s p ≠ some (md5h newText))
    (hchunks : chunk_text md5h newText.data p ≠ [])
    (hok : (build_index_with_files md5h embed orders "" [scan_of md5h p newText] s).ok
      = true) :
    (rows_for_path (build_index_with_files md5h embed orders ""
        [scan_of md5h p newText] s).store p).Perm
      ((chunk_text md5h newText.data p).map fun c => expected_embedding embed (chunk_input c)) ∧
    get_file_hash (build_index_with_files md5h embed orders ""
        [scan_of md5h p newText] s).store p = some (md5h newText) := by
  have hQne : (chunk_text md5h newText.data p).map chunk_input ≠ [] := by
    intro hc
    exact hchunks (List.map_eq_nil_iff.mp hc)
  have hred : build_index_with_files md5h embed orders "" [scan_of md5h p newText] s =
      (match generate_embeddings embed orders
          ((chunk_text md5h newText.data p).map chunk_input) with
       | none => IndexRun.mk (upsert_file_hash (delete_embeddings_for_path s p) p
           (md5h newText)) false ((chunk_text md5h newText.data p).map chunk_input) [p]
       | some embs => IndexRun.mk (insert_embeddings (upsert_file_hash
           (delete_embeddings_for_path s p) p (md5h newText)) embs) true
           ((chunk_text md5h newText.data p).map chunk_input) [p]) := by
    have hdir : dir_overview_step (α := α) md5h "" s = (s, [], []) := by
      unfold dir_overview_step
      rw [if_pos rfl]
    simp only [build_index_with_files, hdir, process_scans, scan_of, List.nil_append]
    rw [if_neg (show ¬(md5h newText = "" ∨ chunk_text md5h newText.data p = []) from by
      push_neg
      exact ⟨hhash, hchunks⟩)]
    rw [if_neg hchanged]
    simp [hQne]
  rw [hred] at hok ⊢
  cases hgen : generate_embeddings embed orders
      ((chunk_text md5h newText.data p).map chunk_input) with
  | none =>
    rw [hgen] at hok
    simp at hok
  | some out =>
    dsimp only at hok ⊢
    have hperm := (generate_embeddings_perm embed orders _ hord out hgen).2
    have hids_eq : List.Perm (out.map Embedding.id)
        ((chunk_text md5h newText.data p).map (fun c => (chunk_input c).id)) := by
      have h1 := hperm.map Embedding.id
      rw [List.map_map, List.map_map] at h1
      exact h1
    have hnodids : (out.map Embedding.id).Nodup := by
      rw [hids_eq.nodup_iff]
      exact chunk_input_ids_nodup md5h newText.data p
    have hpaths_out : ∀ e ∈ out, e.path = p := by
      intro e he
      have hmem := hperm.subset he
      obtain ⟨inp, hinp, hexp⟩ := List.mem_map.mp hmem
      obtain ⟨c, hc, hci⟩ := List.mem_map.mp hinp
      have hcp := (chunk_text_offsets md5h newText.data p).2 c hc
      rw [← hexp, ← hci]
      simpa [expected_embedding, chunk_input] using hcp
    have hempty : rows_for_path (upsert_file_hash (delete_embeddings_for_path s p) p
        (md5h newText)) p = [] := by
      rw [rows_for_path_upsert_file_hash]
      exact rows_for_path_delete_self s p
    constructor
    · rw [rows_for_path_insert_all _ out p hnodids hempty hpaths_out]
      have : ((chunk_text md5h newText.data p).map chunk_input).map
          (expected_embedding embed) =
          (chunk_text md5h newText.data p).map fun c => expected_embedding embed
            (chunk_input c) := by
        rw [List.map_map]
        rfl
      rw [← this]
      exact hperm
    · rw [get_file_hash_insert]
      exact get_file_hash_upsert_self _ p (md5h newText)

/-- Witness for C3 as amended: content "hi" replacing stored content for
path "a.md", single chunk, identity schedule, healthy backend. -/
theorem c3_amended_witness :
    (rows_for_path (build_index_with_files (α := ℤ) (fun s => "H" ++ s) (fun _ => some [2])
        (fun j => List.range (((chunksOf 32 ((chunk_text (fun s => "H" ++ s) "hi".data
          "a.md").map chunk_input)).getD j []).length))
        "" [scan_of (fun s => "H" ++ s) "a.md" "hi"]
        (Store.mk [Embedding.mk "a.md:0" [1] "FILE: a.md\nOFFSET: 0\nhello" "a.md"]
          [("a.md", "Hhello")])).store "a.md").Perm
      ((chunk_text (fun s => "H" ++ s) "hi".data "a.md").map fun c =>
        expected_embedding (fun _ => some [(2 : ℤ)]) (chunk_input c)) ∧
    get_file_hash (build_index_with_files (α := ℤ) (fun s => "H" ++ s) (fun _ => some [2])
        (fun j => List.range (((chunksOf 32 ((chunk_text (fun s => "H" ++ s) "hi".data
          "a.md").map chunk_input)).getD j []).length))
        "" [scan_of (fun s => "H" ++ s) "a.md" "hi"]
        (Store.mk [Embedding.mk "a.md:0" [1] "FILE: a.md\nOFFSET: 0\nhello" "a.md"]
          [("a.md", "Hhello")])).store "a.md" = some "Hhi" :=
  c3_amended (fun s => "H" ++ s) (fun _ => some [(2 : ℤ)])
    (fun j => List.range (((chunksOf 32 ((chunk_text (fun s => "H" ++ s) "hi".data
      "a.md").map chunk_input)).getD j []).length))
    (Store.mk [Embedding.mk "a.md:0" [1] "FILE: a.md\nOFFSET: 0\nhello" "a.md"]
      [("a.md", "Hhello")]) "a.md" "hi"
    (fun _ => List.Perm.refl _) (by decide) (by decide) (by decide) (by decide)

/-! ## Claim C4: unchanged files are skipped -/

theorem rows_for_path_upsert_embedding_ne {α : Type} (s : Store α) (e : Embedding α)
    (p : String) (hpath : e.path ≠ p)
    (hid : ∀ r ∈ rows_for_path s p, r.id ≠ e.id) :
    rows_for_path (upsert_embedding s e) p = rows_for_path s p := by
  unfold rows_for_path upsert_embedding
  rw [List.filter_append]
  have h2 : ([e].filter fun r => r.path == p) = [] := by
    simp [hpath]
  have h1 : ((s.embeddings.filter fun r => r.id != e.id).filter fun r => r.path == p) =
      s.embeddings.filter fun r => r.path == p := by
    apply filter_filter_of_mem_imp
    intro x hx hfx
    have hrow : x ∈ rows_for_path s p := List.mem_filter.mpr ⟨hx, hfx⟩
    simpa using hid x hrow
  rw [h1, h2, List.append_nil]

theorem rows_for_path_insert_fresh {α : Type} :
    ∀ (batch : List (Embedding α)) (s : Store α) (p : String),
      (∀ e ∈ batch, e.path ≠ p) →
      (∀ e ∈ batch, ∀ r ∈ rows_for_path s p, r.id ≠ e.id) →
      rows_for_path (insert_embeddings s batch) p = rows_for_path s p := by
  intro batch
  induction batch with
  | nil => intro s p _ _; rfl
  | cons e bs ih =>
    intro s p hpaths hids
    have hstep : rows_for_path (upsert_embedding s e) p = rows_for_path s p :=
      rows_for_path_upsert_embedding_ne s e p (hpaths e (List.mem_cons_self _ _))
        (fun r hr => hids e (List.mem_cons_self _ _) r hr)
    have hrw : insert_embeddings s (e :: bs) = insert_embeddings (upsert_embedding s e) bs := rfl
    rw [hrw, ih (upsert_embedding s e) p
      (fun x hx => hpaths x (List.mem_cons_of_mem _ hx))
      (fun x hx r hr => hids x (List.mem_cons_of_mem _ hx) r (by rw [hstep] at hr; exact hr))]
    exact hstep

theorem generate_batch_mem {α : Type} (embed : String → Option (List α))
    (order : List Nat) (inputs : List EmbeddingInput) (out : List (Embedding α))
    (h : generate_batch_embeddings embed order inputs = some out) :
    ∀ e ∈ out, ∃ inp ∈ inputs, e = expected_embedding embed inp := by
  intro e he
  unfold generate_batch_embeddings at h
  have hl := collect_results_eq_map_some _ _ h
  have hmem : some e ∈ order.filterMap fun i => (inputs.get? i).map (embed_one embed) := by
    rw [hl]
    exact List.mem_map_of_mem _ he
  obtain ⟨i, _, hi⟩ := List.mem_filterMap.mp hmem
  cases hg : inputs.get? i with
  | none => rw [hg] at hi; simp at hi
  | some inp =>
    rw [hg] at hi
    simp only [Option.map_some', Option.some.injEq] at hi
    refine ⟨inp, List.get?_mem hg, ?_⟩
    unfold embed_one at hi
    cases hev : embed inp.text with
    | none => rw [hev] at hi; simp at hi
    | some v =>
      rw [hev] at hi
      simp only [Option.map_some', Option.some.injEq] at hi
      rw [← hi]
      simp [expected_embedding, hev]

theorem generate_batches_mem {α : Type} (embed : String → Option (List α))
    (orders : Nat → List Nat) :
    ∀ (bs : List (List EmbeddingInput)) (i : Nat) (out : List (Embedding α)),
      generate_batches embed orders i bs = some out →
      ∀ e ∈ out, ∃ inp ∈ bs.flatten, e = expected_embedding embed inp := by
  intro bs
  induction bs with
  | nil =>
    intro i out hg e he
    simp only [generate_batches, Option.some.injEq] at hg
    subst hg
    simp at he
  | cons b bs ih =>
    intro i out hg e he
    simp only [generate_batches] at hg
    cases hb : generate_batch_embeddings embed (orders i) b with
    | none => rw [hb] at hg; simp at hg
    | some o1 =>
      rw [hb] at hg
      cases hr : generate_batches embed orders (i + 1) bs with
      | none => rw [hr] at hg; simp at hg
      | some rest =>
        rw [hr] at hg
        simp only [Option.some.injEq] at hg
        subst hg
        rcases List.mem_append.mp he with h1 | h1
        · obtain ⟨inp, hin, hei⟩ := generate_batch_mem embed (orders i) b o1 hb e h1
          refine ⟨inp, ?_, hei⟩
          rw [List.flatten_cons]
          exact List.mem_append.mpr (Or.inl hin)
        · obtain ⟨inp, hin, hei⟩ := ih (i + 1) rest hr e h1
          refine ⟨inp, ?_, hei⟩
          rw [List.flatten_cons]
          exact List.mem_append.mpr (Or.inr hin)

theorem generate_embeddings_mem {α : Type} (embed : String → Option (List α))
    (orders : Nat → List Nat) (inputs : List EmbeddingInput) (out : List (Embedding α))
    (h : generate_embeddings embed orders inputs = some out) :
    ∀ e ∈ out, ∃ inp ∈ inputs, e = expected_embedding embed inp := by
  intro e he
  obtain ⟨inp, hin, hei⟩ := generate_batches_mem embed orders (chunksOf 32 inputs) 0 out h e he
  rw [show (chunksOf 32 inputs).flatten = inputs from
    join_chunksGo 32 (by omega) inputs.length inputs le_rfl] at hin
  exact ⟨inp, hin, hei⟩

theorem process_scans_frame {α : Type} (p : String) :
    ∀ (scans : List FileScanResult) (s : Store α) (queued : List EmbeddingInput)
      (dels : List String),
      (∀ sc ∈ scans, sc.path = p → get_file_hash s p = some sc.hash) →
      rows_for_path (process_scans s queued dels scans).1 p = rows_for_path s p ∧
        get_file_hash (process_scans s queued dels scans).1 p = get_file_hash s p ∧
        (∀ inp ∈ (process_scans s queued dels scans).2.1, inp ∈ queued ∨
          ∃ sc ∈ scans, sc.path ≠ p ∧ ∃ c ∈ sc.chunks, inp = chunk_input c) ∧
        (∀ d ∈ (process_scans s queued dels scans).2.2, d ∈ dels ∨ d ≠ p) := by
  intro scans
  induction scans with
  | nil =>
    intro s queued dels _
    exact ⟨rfl, rfl, fun inp h => Or.inl h, fun d h => Or.inl h⟩
  | cons sc rest ih =>
    intro s queued dels hunch
    by_cases h1 : sc.hash = "" ∨ sc.chunks = []
    · have hred : process_scans s queued dels (sc :: rest) = process_scans s queued dels rest := by
        simp only [process_scans]
        rw [if_pos h1]
      rw [hred]
      obtain ⟨ha, hb, hc, hd⟩ :=
        ih s queued dels (fun x hx => hunch x (List.mem_cons_of_mem _ hx))
      refine ⟨ha, hb, ?_, hd⟩
      intro inp h
      rcases hc inp h with h' | ⟨x, hx, hne, c, hcm, he⟩
      · exact Or.inl h'
      · exact Or.inr ⟨x, List.mem_cons_of_mem _ hx, hne, c, hcm, he⟩
    · by_cases h2 : get_file_hash s sc.path = some sc.hash
      · have hred : process_scans s queued dels (sc :: rest) =
            process_scans s queued dels rest := by
          simp only [process_scans]
          rw [if_neg h1, if_pos h2]
        rw [hred]
        obtain ⟨ha, hb, hc, hd⟩ :=
          ih s queued dels (fun x hx => hunch x (List.mem_cons_of_mem _ hx))
        refine ⟨ha, hb, ?_, hd⟩
        intro inp h
        rcases hc inp h with h' | ⟨x, hx, hne, c, hcm, he⟩
        · exact Or.inl h'
        · exact Or.inr ⟨x, List.mem_cons_of_mem _ hx, hne, c, hcm, he⟩
      · have hscp : sc.path ≠ p := fun he =>
          h2 (by rw [he]; exact hunch sc (List.mem_cons_self _ _) he)
        have hred : process_scans s queued dels (sc :: rest) =
            process_scans
              (upsert_file_hash (delete_embeddings_for_path s sc.path) sc.path sc.hash)
              (queued ++ sc.chunks.map chunk_input) (dels ++ [sc.path]) rest := by
          simp only [process_scans]
          rw [if_neg h1, if_neg h2]
        rw [hred]
        have hrows2 : rows_for_path
            (upsert_file_hash (delete_embeddings_for_path s sc.path) sc.path sc.hash) p =
            rows_for_path s p := by
          rw [rows_for_path_upsert_file_hash,
            rows_for_path_delete_other s sc.path p (fun he => hscp he.symm)]
        have hmeta2 : get_file_hash
            (upsert_file_hash (delete_embeddings_for_path s sc.path) sc.path sc.hash) p =
            get_file_hash s p := by
          rw [get_file_hash_upsert_other _ _ _ _ (fun he => hscp he.symm), get_file_hash_delete]
        obtain ⟨ha, hb, hc, hd⟩ :=
          ih (upsert_file_hash (delete_embeddings_for_path s sc.path) sc.path sc.hash)
            (queued ++ sc.chunks.map chunk_input) (dels ++ [sc.path])
            (fun x hx hxp => by rw [hmeta2]; exact hunch x (List.mem_cons_of_mem _ hx) hxp)
        refine ⟨ha.trans hrows2, hb.trans hmeta2, ?_, ?_⟩
        · intro inp h
          rcases hc inp h with h' | ⟨x, hx, hne, c, hcm, he⟩
          · rcases List.mem_append.mp h' with hq | hq
            · exact Or.inl hq
            · obtain ⟨c, hcm, hci⟩ := List.mem_map.mp hq
              exact Or.inr ⟨sc, List.mem_cons_self _ _, hscp, c, hcm, hci.symm⟩
          · exact Or.inr ⟨x, List.mem_cons_of_mem _ hx, hne, c, hcm, he⟩
        · intro d h
          rcases hd d h with h' | h'
          · rcases List.mem_append.mp h' with hq | hq
            · exact Or.inl hq
            · right
              rw [List.mem_singleton.mp hq]
              exact hscp
          · exact Or.inr h'

theorem dir_overview_step_frame {α : Type} (md5h : String → String) (dov : String)
    (s : Store α) (p : String) (hp : p ≠ "__dir_overview__") :
    rows_for_path (dir_overview_step md5h dov s).1 p = rows_for_path s p ∧
      get_file_hash (dir_overview_step md5h dov s).1 p = get_file_hash s p ∧
      (∀ inp ∈ (dir_overview_step md5h dov s).2.1,
        inp = EmbeddingInput.mk ("__dir_overview__:" ++ md5h dov) "__dir_overview__"
          ("DIRECTORY TREE:\n" ++ dov)) ∧
      (∀ d ∈ (dir_overview_step md5h dov s).2.2, d ≠ p) := by
  by_cases h0 : dov = ""
  · have hred : dir_overview_step md5h dov s = (s, [], []) := by
      simp only [dir_overview_step]
      rw [if_pos h0]
    rw [hred]
    exact ⟨rfl, rfl, fun inp h => absurd h (List.not_mem_nil _),
      fun d h => absurd h (List.not_mem_nil _)⟩
  · by_cases h1 : get_file_hash s "__dir_overview__" = some (md5h dov)
    · have hred : dir_overview_step md5h dov s = (s, [], []) := by
        simp only [dir_overview_step]
        rw [if_neg h0, if_pos h1]
      rw [hred]
      exact ⟨rfl, rfl, fun inp h => absurd h (List.not_mem_nil _),
        fun d h => absurd h (List.not_mem_nil _)⟩
    · have hred : dir_overview_step md5h dov s =
          (upsert_file_hash (delete_embeddings_for_path s "__dir_overview__")
            "__dir_overview__" (md5h dov),
           [EmbeddingInput.mk ("__dir_overview__:" ++ md5h dov) "__dir_overview__"
             ("DIRECTORY TREE:\n" ++ dov)], ["__dir_overview__"]) := by
        simp only [dir_overview_step]
        rw [if_neg h0, if_neg h1]
      rw [hred]
      refine ⟨?_, ?_, ?_, ?_⟩
      · exact (rows_for_path_upsert_file_hash _ _ _ _).trans
          (rows_for_path_delete_other s "__dir_overview__" p hp)
      · exact (get_file_hash_upsert_other _ _ _ _ hp).trans (get_file_hash_delete _ _ _)
      · intro inp h
        exact List.mem_singleton.mp h
      · intro d h
        rw [List.mem_singleton.mp h]
        exact fun he => hp he.symm

/-- C4 — "For any file whose content hash does not change between two
indexing passes, the second pass performs zero embedding calls and zero
store deletes for that path, leaving that path's stored embeddings and
stored file hash unmodified."  Confirmed: for any path p other than the
synthetic directory-overview path, if every scan of p carries the hash
already stored for p (the unchanged-file premise), each scan's chunks carry
their scan's path (as the scanner guarantees), and the previously stored
rows for p have ids distinct from the chunk ids of OTHER files' scans and
from the synthetic overview id (no cross-path primary-key collisions), then
the pass deletes nothing for p, queues no embedding input with path p
(exactly one embedding call is attempted per queued input, so zero
embedding calls concern p), and leaves both rows_for_path and the stored
hash for p literally unchanged — whether the run succeeds or aborts. -/
theorem c4_unchanged_file_skipped {α : Type} (md5h : String → String)
    (embed : String → Option (List α)) (orders : Nat → List Nat)
    (dir_overview : String) (scans : List FileScanResult) (s : Store α) (p : String)
    (hp : p ≠ "__dir_overview__")
    (hunch : ∀ sc ∈ scans, sc.path = p → get_file_hash s p = some sc.hash)
    (hcp : ∀ sc ∈ scans, ∀ c ∈ sc.chunks, c.path = sc.path)
    (hfresh : ∀ r ∈ rows_for_path s p, ∀ sc ∈ scans, sc.path ≠ p →
      ∀ c ∈ sc.chunks, r.id ≠ (chunk_input c).id)
    (hdirfresh : ∀ r ∈ rows_for_path s p,
      r.id ≠ "__dir_overview__:" ++ md5h dir_overview) :
    (∀ d ∈ (build_index_with_files md5h embed orders dir_overview scans s).deletes, d ≠ p) ∧
      (∀ inp ∈ (build_index_with_files md5h embed orders dir_overview scans s).queued,
        inp.path ≠ p) ∧
      rows_for_path (build_index_with_files md5h embed orders dir_overview scans s).store p =
        rows_for_path s p ∧
      get_file_hash (build_index_with_files md5h embed orders dir_overview scans s).store p =
        get_file_hash s p := by
  obtain ⟨dra, drb, drc, drd⟩ := dir_overview_step_frame md5h dir_overview s p hp
  obtain ⟨pa, pb, pc, pd⟩ := process_scans_frame p scans
    (dir_overview_step md5h dir_overview s).1
    (dir_overview_step md5h dir_overview s).2.1
    (dir_overview_step md5h dir_overview s).2.2
    (fun sc hsc hscp => by rw [drb]; exact hunch sc hsc hscp)
  have hqpath : ∀ inp ∈ (process_scans (dir_overview_step md5h dir_overview s).1
      (dir_overview_step md5h dir_overview s).2.1
      (dir_overview_step md5h dir_overview s).2.2 scans).2.1, inp.path ≠ p := by
    intro inp h
    rcases pc inp h with h' | ⟨x, hx, hne, c, hcm, he⟩
    · rw [drc inp h']
      exact fun hcon => hp hcon.symm
    · rw [he]
      show c.path ≠ p
      rw [hcp x hx c hcm]
      exact hne
  have hqid : ∀ inp ∈ (process_scans (dir_overview_step md5h dir_overview s).1
      (dir_overview_step md5h dir_overview s).2.1
      (dir_overview_step md5h dir_overview s).2.2 scans).2.1,
      ∀ r ∈ rows_for_path s p, r.id ≠ inp.id := by
    intro inp h r hr
    rcases pc inp h with h' | ⟨x, hx, hne, c, hcm, he⟩
    · rw [drc inp h']
      exact hdirfresh r hr
    · rw [he]
      exact hfresh r hr x hx hne c hcm
  simp only [build_index_with_files]
  set L := process_scans (dir_overview_step md5h dir_overview s).1
    (dir_overview_step md5h dir_overview s).2.1
    (dir_overview_step md5h dir_overview s).2.2 scans with hL
  by_cases hQ : L.2.1 = []
  · rw [if_pos hQ]
    exact ⟨fun d0 hd0 => (pd d0 hd0).elim (fun h' => drd d0 h') id,
           fun inp h => hqpath inp h,
           pa.trans dra, pb.trans drb⟩
  · rw [if_neg hQ]
    cases hgen : generate_embeddings embed orders L.2.1 with
    | none =>
      exact ⟨fun d0 hd0 => (pd d0 hd0).elim (fun h' => drd d0 h') id,
             fun inp h => hqpath inp h,
             pa.trans dra, pb.trans drb⟩
    | some out =>
      have hmem := generate_embeddings_mem embed orders L.2.1 out hgen
      have hrows : rows_for_path (insert_embeddings L.1 out) p = rows_for_path L.1 p := by
        apply rows_for_path_insert_fresh
        · intro e he
          obtain ⟨inp, hin, hei⟩ := hmem e he
          rw [hei]
          exact hqpath inp hin
        · intro e he r hr
          obtain ⟨inp, hin, hei⟩ := hmem e he
          rw [hei]
          have hr' : r ∈ rows_for_path s p := by
            rw [pa.trans dra] at hr
            exact hr
          exact hqid inp hin r hr'
      exact ⟨fun d0 hd0 => (pd d0 hd0).elim (fun h' => drd d0 h') id,
             fun inp h => hqpath inp h,
             hrows.trans (pa.trans dra),
             (get_file_hash_insert L.1 out p).trans (pb.trans drb)⟩

/-- Concrete instance of the C4 theorem: the store already holds the single
chunk row and the hash of a.md's content "hello"; the second pass rescans
a.md unchanged alongside a new file b.md, and a.md's row, hash, deletes and
queue are untouched. -/
theorem c4_unchanged_file_skipped_witness :
    (∀ d ∈ (build_index_with_files (α := ℤ) (fun s => "H" ++ s) (fun _ => some [1])
        (fun _ => [0]) ""
        [scan_of (fun s => "H" ++ s) "a.md" "hello", scan_of (fun s => "H" ++ s) "b.md" "world"]
        (Store.mk [Embedding.mk "a.md:0" [1] "FILE: a.md\nOFFSET: 0\nhello" "a.md"]
          [("a.md", "Hhello")])).deletes, d ≠ "a.md") ∧
      (∀ inp ∈ (build_index_with_files (α := ℤ) (fun s => "H" ++ s) (fun _ => some [1])
        (fun _ => [0]) ""
        [scan_of (fun s => "H" ++ s) "a.md" "hello", scan_of (fun s => "H" ++ s) "b.md" "world"]
        (Store.mk [Embedding.mk "a.md:0" [1] "FILE: a.md\nOFFSET: 0\nhello" "a.md"]
          [("a.md", "Hhello")])).queued, inp.path ≠ "a.md") ∧
      rows_for_path (build_index_with_files (α := ℤ) (fun s => "H" ++ s) (fun _ => some [1])
        (fun _ => [0]) ""
        [scan_of (fun s => "H" ++ s) "a.md" "hello", scan_of (fun s => "H" ++ s) "b.md" "world"]
        (Store.mk [Embedding.mk "a.md:0" [1] "FILE: a.md\nOFFSET: 0\nhello" "a.md"]
          [("a.md", "Hhello")])).store "a.md" =
        rows_for_path (Store.mk [Embedding.mk "a.md:0" [1] "FILE: a.md\nOFFSET: 0\nhello" "a.md"]
          [("a.md", "Hhello")]) "a.md" ∧
      get_file_hash (build_index_with_files (α := ℤ) (fun s => "H" ++ s) (fun _ => some [1])
        (fun _ => [0]) ""
        [scan_of (fun s => "H" ++ s) "a.md" "hello", scan_of (fun s => "H" ++ s) "b.md" "world"]
        (Store.mk [Embedding.mk "a.md:0" [1] "FILE: a.md\nOFFSET: 0\nhello" "a.md"]
          [("a.md", "Hhello")])).store "a.md" =
        get_file_hash (Store.mk [Embedding.mk "a.md:0" [1] "FILE: a.md\nOFFSET: 0\nhello" "a.md"]
          [("a.md", "Hhello")]) "a.md" :=
  c4_unchanged_file_skipped (fun s => "H" ++ s) (fun _ => some [(1 : ℤ)]) (fun _ => [0]) ""
    [scan_of (fun s => "H" ++ s) "a.md" "hello", scan_of (fun s => "H" ++ s) "b.md" "world"]
    (Store.mk [Embedding.mk "a.md:0" [1] "FILE: a.md\nOFFSET: 0\nhello" "a.md"]
      [("a.md", "Hhello")]) "a.md"
    (by decide) (by decide) (by decide) (by decide) (by decide)

end Vibe
